import Mathlib

/-!
The tar filter registry and the filter command line of `archive-tar-filter.c`.

A shallow embedding of `archive-tar-filter.c`.

Conventions of the embedding.

* A C string is the list of its characters before the terminating NUL.  The
  terminator is not an element of the list: reading index `i` of a string `s`
  yields `s[i]?`, which is `none` exactly at the terminator.
* `int` and `size_t` values are exact integers.  The strings of this program
  (file names from the command line, configuration keys and values) are far
  shorter than `2^31` bytes, and on that range the C arithmetic is exact.
* A pointer into the linked list `tar_filters` is the position of the node in
  the list; `NULL` is `none`.  `tar_filter_new` links the new node at
  `tar_filters_tail`, which is the end of the list whenever it is called
  (from `load_builtin_filters` and from `tar_filter_config`, both before
  `remove_filters_without_command` runs).
-/

namespace TarFilter

/-- A C string: the characters before the terminating NUL. -/
abbrev CStr := List Char

/-! ## C library and git helpers used by the file -/

/-- The C function `strlen`. -/
def strlen (s : CStr) : Nat := s.length

/-- The C function `strcmp`: the sign of the first difference, the terminator being smaller
than every character. -/
def strcmp : CStr → CStr → Int
  | [], [] => 0
  | [], _ :: _ => -1
  | _ :: _, [] => 1
  | a :: as, b :: bs =>
    if a = b then strcmp as bs else if a.toNat < b.toNat then -1 else 1

/-- The C function `strncmp`: as `strcmp`, over at most `n` characters. -/
def strncmp : CStr → CStr → Nat → Int
  | _, _, 0 => 0
  | [], [], _ + 1 => 0
  | [], _ :: _, _ + 1 => -1
  | _ :: _, [], _ + 1 => 1
  | a :: as, b :: bs, n + 1 =>
    if a = b then strncmp as bs n else if a.toNat < b.toNat then -1 else 1

/-- The git helper `prefixcmp(str, prefix)`: zero exactly when `str` starts with `prefix`,
otherwise the sign of the first difference. -/
def prefixcmp : CStr → CStr → Int
  | _, [] => 0
  | [], _ :: _ => 1
  | a :: as, b :: bs =>
    if a = b then prefixcmp as bs else if a.toNat < b.toNat then 1 else -1

/-- The scan of `strrchr`: `i` is the position of the head of the remaining
text, `last` the position of the last occurrence seen so far. -/
def strrchr_loop (c : Char) : CStr → Nat → Option Nat → Option Nat
  | [], _, last => last
  | a :: as, i, last => strrchr_loop c as (i + 1) (if a = c then some i else last)

/-- The C function `strrchr(s, c)` for a character `c` other than NUL: the position of the
last occurrence of `c` in `s`, or `none` (NULL). -/
def strrchr (s : CStr) (c : Char) : Option Nat := strrchr_loop c s 0 none

/-- The format `%d` of `strbuf_addf`: the decimal digits of `n`, with a minus sign when negative. -/
def fmt_d (n : Int) : CStr :=
  if n < 0 then '-' :: Nat.toDigits 10 n.natAbs else Nat.toDigits 10 n.toNat

/-! ## match_extension -/

/-- The function `match_extension(filename, ext)`, the C result read as a truth value. -/
def match_extension (filename ext : CStr) : Bool :=
  let prefixlen : Int := (strlen filename : Int) - (strlen ext : Int)
  if prefixlen < 2 ∨ filename[(prefixlen - 1).toNat]? ≠ some '.' then false
  else strcmp (filename.drop prefixlen.toNat) ext == 0

/-! ## The registry -/

/-- The record `struct tar_filter` without its `next` link.  The declaration is in
`archive.h`; the fields are those this file reads and writes: `command` is
`none` for a NULL pointer, `use_compression` is the truth value of the flag. -/
structure tar_filter where
  name : CStr
  command : Option CStr
  extensions : List CStr
  use_compression : Bool
  deriving DecidableEq, Repr

/-- The function `tar_filter_new(name, namelen)`: a zeroed node whose name is the first
`namelen` characters of `name`, linked at the tail of the list.  Returns the
list and the pointer to the new node. -/
def tar_filter_new (tar_filters : List tar_filter) (name : CStr) (namelen : Nat) :
    List tar_filter × Nat :=
  let tf : tar_filter :=
    { name := name.take namelen, command := none, extensions := [], use_compression := false }
  (tar_filters ++ [tf], tar_filters.length)

/-- The loop of `tar_filter_by_namelen`; `i` is the position of the head of
the remaining list. -/
def tar_filter_by_namelen_loop (name : CStr) (len : Nat) : List tar_filter → Nat → Option Nat
  | [], _ => none
  | p :: next, i =>
    if strncmp p.name name len = 0 ∧ p.name[len]? = none then some i
    else tar_filter_by_namelen_loop name len next (i + 1)

/-- The function `tar_filter_by_namelen(name, len)`. -/
def tar_filter_by_namelen (tar_filters : List tar_filter) (name : CStr) (len : Nat) :
    Option Nat :=
  tar_filter_by_namelen_loop name len tar_filters 0

/-- The function `tar_filter_by_name(name)`. -/
def tar_filter_by_name (tar_filters : List tar_filter) (name : CStr) : Option Nat :=
  tar_filter_by_namelen tar_filters name (strlen name)

/-- The inner loop of `tar_filter_by_extension` over `p->extensions.items`:
whether some extension matches. -/
def extensions_match (filename : CStr) : List CStr → Bool
  | [] => false
  | ext :: items => if match_extension filename ext then true else extensions_match filename items

/-- The outer loop of `tar_filter_by_extension`; `i` is the position of the
head of the remaining list. -/
def tar_filter_by_extension_loop (filename : CStr) : List tar_filter → Nat → Option Nat
  | [], _ => none
  | p :: next, i =>
    if extensions_match filename p.extensions then some i
    else tar_filter_by_extension_loop filename next (i + 1)

/-- The function `tar_filter_by_extension(filename)`. -/
def tar_filter_by_extension (tar_filters : List tar_filter) (filename : CStr) : Option Nat :=
  tar_filter_by_extension_loop filename tar_filters 0

/-- An assignment through the pointer `tf`: the node at position `tf` is
replaced by `f` of it, every other node stays. -/
def assign (f : tar_filter → tar_filter) : List tar_filter → Nat → List tar_filter
  | [], _ => []
  | p :: next, 0 => f p :: next
  | p :: next, tf + 1 => p :: assign f next tf

/-- Modelled from the spec: `config_error_nonbool` is defined in `config.c`;
it reports the configuration error of a key given without a value, and its
result is the negative error code. -/
def config_error_nonbool (_var : CStr) : Int := -1

/-- The function `tar_filter_config(var, value, data)`: the callback for one configuration
key.  `value` is `none` for a key given without a value.  `git_config_bool`
(defined in `config.c`) is a parameter.  Returns the list and the result code. -/
def tar_filter_config (git_config_bool : CStr → Option CStr → Bool)
    (var : CStr) (value : Option CStr) (tar_filters : List tar_filter) :
    List tar_filter × Int :=
  if prefixcmp var "tarfilter.".toList ≠ 0 then (tar_filters, 0)
  else
    match strrchr var '.' with
    | none => (tar_filters, 0) -- not reached, see `strrchr_ne_none_of_ns`
    | some dot =>
      if dot = 9 then (tar_filters, 0)
      else
        let name := var.drop 10
        let namelen := dot - 10
        let type := var.drop (dot + 1)
        let found :=
          match tar_filter_by_namelen tar_filters name namelen with
          | some tf => (tar_filters, tf)
          | none => tar_filter_new tar_filters name namelen
        let tar_filters := found.1
        let tf := found.2
        if strcmp type "command".toList = 0 then
          match value with
          | none => (tar_filters, config_error_nonbool var)
          | some v => (assign (fun p => { p with command := some v }) tar_filters tf, 0)
        else if strcmp type "extension".toList = 0 then
          match value with
          | none => (tar_filters, config_error_nonbool var)
          | some v =>
            (assign (fun p => { p with extensions := p.extensions ++ [v] }) tar_filters tf, 0)
        else if strcmp type "compressionlevels".toList = 0 then
          (assign (fun p => { p with use_compression := git_config_bool var value })
            tar_filters tf, 0)
        else (tar_filters, 0)

/-- The test `p->command && *p->command`. -/
def has_command (p : tar_filter) : Bool :=
  match p.command with
  | none => false
  | some [] => false
  | some (_ :: _) => true

/-- The loop of `remove_filters_without_command`: `kept` is the list from
`tar_filters` up to the link `last`, the second argument the list from `p`. -/
def remove_filters_without_command_loop (kept : List tar_filter) :
    List tar_filter → List tar_filter
  | [] => kept
  | p :: next =>
    if has_command p then remove_filters_without_command_loop (kept ++ [p]) next
    else remove_filters_without_command_loop kept next

/-- The function `remove_filters_without_command()`. -/
def remove_filters_without_command (tar_filters : List tar_filter) : List tar_filter :=
  remove_filters_without_command_loop [] tar_filters

/-- The function `load_builtin_filters()`. -/
def load_builtin_filters (tar_filters : List tar_filter) : List tar_filter :=
  let new := tar_filter_new tar_filters "tgz".toList (strlen "tgz".toList)
  let tar_filters := new.1
  let tf := new.2
  let tar_filters := assign (fun p => { p with command := some "gzip -n".toList }) tar_filters tf
  let tar_filters :=
    assign (fun p => { p with extensions := p.extensions ++ ["tgz".toList] }) tar_filters tf
  let tar_filters :=
    assign (fun p => { p with extensions := p.extensions ++ ["tar.gz".toList] }) tar_filters tf
  assign (fun p => { p with use_compression := true }) tar_filters tf

/-- Modelled from the spec: `git_config` is defined in `config.c`; it calls
the callback on every key/value pair of the configuration source, in order,
and a key the callback reports an error for does not stop the load.  The
configuration source is the list `config`. -/
def git_config (fn : CStr → Option CStr → List tar_filter → List tar_filter × Int)
    (config : List (CStr × Option CStr)) (tar_filters : List tar_filter) : List tar_filter :=
  match config with
  | [] => tar_filters
  | (var, value) :: rest => git_config fn rest (fn var value tar_filters).1

/-- The process-wide state of the file: the list `tar_filters` and the flag
`tar_filter_config_loaded`. -/
structure State where
  tar_filters : List tar_filter
  tar_filter_config_loaded : Bool
  deriving DecidableEq, Repr

/-- The state at process start: both variables are zero-initialised. -/
def State.init : State := { tar_filters := [], tar_filter_config_loaded := false }

/-- The function `tar_filter_load_config()`. -/
def tar_filter_load_config (git_config_bool : CStr → Option CStr → Bool)
    (config : List (CStr × Option CStr)) (s : State) : State :=
  if s.tar_filter_config_loaded then s
  else
    let tar_filters := load_builtin_filters s.tar_filters
    let tar_filters := git_config (tar_filter_config git_config_bool) config tar_filters
    let tar_filters := remove_filters_without_command tar_filters
    { tar_filters := tar_filters, tar_filter_config_loaded := true }

/-! ## The filter command line -/

/-- The command line built in `write_tar_filter_archive` (the buffer `cmd`
handed to `write_tar_to_filter`) for the filter `tf` and the compression
level of the arguments; `none` when `tf->command` is NULL, which
`strbuf_addstr` cannot read. -/
def write_tar_filter_archive_cmd (tf : tar_filter) (compression_level : Int) : Option CStr :=
  match tf.command with
  | none => none
  | some command =>
    let cmd : CStr := []
    let cmd := cmd ++ command
    if tf.use_compression ∧ compression_level ≥ 0 then
      some (cmd ++ (" -".toList ++ fmt_d compression_level))
    else some cmd

/-! ## Writing through the filter -/

/-- What an open descriptor refers to: a file that was open when the archiver
was called, named by a number, or the write end of the pipe to the filter. -/
inductive File where
  | file (n : Nat)
  | pipe_write
  deriving DecidableEq, Repr

/-- The descriptor table of the process: the file each descriptor refers to,
`none` for a closed descriptor. -/
abbrev FdTable := Nat → Option File

/-- The calls `write_tar_to_filter` makes, in the order of the file.
`start_command` carries the command and the descriptor it stored in
`filter.in` (`none` when it failed), `dup2` whether it succeeded. -/
inductive Event where
  | start_command (cmd : CStr) (filter_in : Option Nat)
  | close (fd : Nat)
  | dup2 (oldfd newfd : Nat) (ok : Bool)
  | write_tar_archive
  | finish_command
  deriving DecidableEq, Repr

/-- The effect of one call on the descriptor table.  A started filter leaves
the write end of its pipe at `filter.in`; `close` frees a descriptor; a `dup2`
that succeeds makes `newfd` refer to the file of `oldfd`; the tar writer and
the wait leave the table as it is. -/
def Event.apply (t : FdTable) : Event → FdTable
  | .start_command _ (some fd) => fun n => if n = fd then some File.pipe_write else t n
  | .start_command _ none => t
  | .close fd => fun n => if n = fd then none else t n
  | .dup2 oldfd newfd true => fun n => if n = newfd then t oldfd else t n
  | .dup2 _ _ false => t
  | .write_tar_archive => t
  | .finish_command => t

/-- The descriptor table after a sequence of calls. -/
def exec (t : FdTable) : List Event → FdTable
  | [] => t
  | e :: es => exec (e.apply t) es

/-- The outcomes of the collaborators of `write_tar_to_filter`, which are not
part of this file: `start_command` fails (`none`) or stores a descriptor in
`filter.in`; `dup2`, `write_tar_archive` and `finish_command` return a code. -/
structure Collaborators where
  start_command : Option Nat
  dup2 : Int
  write_tar_archive : Int
  finish_command : Int

/-- How a call ends: `die` terminates the process with a diagnostic, `ret`
returns a result code. -/
inductive Outcome where
  | die (msg : CStr)
  | ret (r : Int)
  deriving DecidableEq, Repr

/-- The result of running the archiver: how it ends and the calls it made. -/
structure Run where
  outcome : Outcome
  trace : List Event
  deriving DecidableEq, Repr

/-- The function `write_tar_to_filter(args, cmd)`.  The diagnostics are the
expanded formats; `die_errno` adds the text of `errno`, which is left out. -/
def write_tar_to_filter (w : Collaborators) (cmd : CStr) : Run :=
  match w.start_command with
  | none =>
    { outcome := .die ("unable to start '".toList ++ cmd ++ "' filter".toList),
      trace := [.start_command cmd none] }
  | some filter_in =>
    if w.dup2 < 0 then
      { outcome := .die "unable to redirect descriptor".toList,
        trace := [.start_command cmd (some filter_in), .close 1, .dup2 filter_in 1 false] }
    else
      let r := w.write_tar_archive
      let trace : List Event :=
        [.start_command cmd (some filter_in), .close 1, .dup2 filter_in 1 true,
         .close filter_in, .write_tar_archive, .close 1, .finish_command]
      if w.finish_command ≠ 0 then
        { outcome := .die ("'".toList ++ cmd ++ "' filter reported error".toList),
          trace := trace }
      else { outcome := .ret r, trace := trace }

/-- The fields of `struct archiver_args` (declared in `archive.h`) that
`write_tar_filter_archive` reads: the filter, `none` for NULL, and the
compression level. -/
structure archiver_args where
  tar_filter : Option tar_filter
  compression_level : Int

/-- The function `write_tar_filter_archive(args)`; `none` when the command
of the filter is NULL, which `strbuf_addstr` cannot read. -/
def write_tar_filter_archive (w : Collaborators) (args : archiver_args) : Option Run :=
  match args.tar_filter with
  | none =>
    some { outcome := .die "BUG: tar-filter archiver called with no filter defined".toList,
           trace := [] }
  | some tf =>
    match write_tar_filter_archive_cmd tf args.compression_level with
    | none => none
    | some cmd => some (write_tar_to_filter w cmd)

/-! ## Auxiliary definitions for the statements -/

/-- The first position, counted from `k`, of a node satisfying `P`. -/
def first_from (P : tar_filter → Bool) : List tar_filter → Nat → Option Nat
  | [], _ => none
  | p :: next, k => if P p then some k else first_from P next (k + 1)

/-- The filter definition a key addresses, as lines 79-87 of the file read
it: `none` for a key that `tar_filter_config` leaves aside, otherwise the
filter name, the text between the namespace prefix and the last dot. -/
def config_key_name (var : CStr) : Option CStr :=
  if prefixcmp var "tarfilter.".toList ≠ 0 then none
  else
    match strrchr var '.' with
    | none => none
    | some dot => if dot = 9 then none else some ((var.drop 10).take (dot - 10))

/-- The node `tar_filter_new` links for the name `n`. -/
def fresh (n : CStr) : tar_filter :=
  { name := n, command := none, extensions := [], use_compression := false }

/-- The definition installed by `load_builtin_filters`. -/
def builtin_tgz : tar_filter :=
  { name := "tgz".toList, command := some "gzip -n".toList,
    extensions := ["tgz".toList, "tar.gz".toList], use_compression := true }

/-- The effect of `tar_filter_config` on a key already split into the filter
name `n` and the attribute `type` (lines 89-110 of the file), with the
library comparisons read as equalities. -/
def config_attr (git_config_bool : CStr → Option CStr → Bool) (var n type : CStr)
    (value : Option CStr) (reg : List tar_filter) : List tar_filter × Int :=
  let found : List tar_filter × Nat :=
    match tar_filter_by_name reg n with
    | some tf => (reg, tf)
    | none =>
      (reg ++ [{ name := n, command := none, extensions := [], use_compression := false }],
        reg.length)
  if type = "command".toList then
    match value with
    | none => (found.1, -1)
    | some v => (assign (fun p => { p with command := some v }) found.1 found.2, 0)
  else if type = "extension".toList then
    match value with
    | none => (found.1, -1)
    | some v => (assign (fun p => { p with extensions := p.extensions ++ [v] }) found.1 found.2, 0)
  else if type = "compressionlevels".toList then
    (assign (fun p => { p with use_compression := git_config_bool var value }) found.1 found.2, 0)
  else (found.1, 0)

/-- The text of a key after its last dot, the attribute that
`tar_filter_config` compares (`type`, line 87). -/
def config_key_type (var : CStr) : CStr :=
  match strrchr var '.' with
  | none => []
  | some dot => var.drop (dot + 1)

/-- The assignment that `tar_filter_config` makes to the definition found or
created, for the attribute `type` (lines 93-110). -/
def attr_fn (git_config_bool : CStr → Option CStr → Bool) (var type : CStr)
    (value : Option CStr) (p : tar_filter) : tar_filter :=
  if type = "command".toList then
    match value with
    | none => p
    | some v => { p with command := some v }
  else if type = "extension".toList then
    match value with
    | none => p
    | some v => { p with extensions := p.extensions ++ [v] }
  else if type = "compressionlevels".toList then
    { p with use_compression := git_config_bool var value }
  else p

/-- The first definition named `n` replaced by `f` of it, or `f` of a new
definition named `n` appended when the list has none. -/
def upd (n : CStr) (f : tar_filter → tar_filter) : List tar_filter → List tar_filter
  | [] => [f (fresh n)]
  | p :: next => if p.name = n then f p :: next else p :: upd n f next

/-- The registry after the built-in filters and the keys of `config`. -/
def merged (git_config_bool : CStr → Option CStr → Bool)
    (config : List (CStr × Option CStr)) : List tar_filter :=
  git_config (tar_filter_config git_config_bool) config (load_builtin_filters [])

/-- The definitions named `n` of two lists agree, or the first list has one
new definition where the second has none. -/
def named_rel (n : CStr) (l1 l2 : List tar_filter) : Prop :=
  l1.filter (fun p => decide (p.name = n)) = l2.filter (fun p => decide (p.name = n)) ∨
    (l1.filter (fun p => decide (p.name = n)) = [fresh n] ∧
      l2.filter (fun p => decide (p.name = n)) = [])

/-- A descriptor table with the three standard descriptors open. -/
def std_fds : FdTable := fun n => if n ≤ 2 then some (File.file n) else none

/-! ## The C library functions -/

theorem strcmp_eq_zero (a b : CStr) : strcmp a b = 0 ↔ a = b := by
  induction a generalizing b with
  | nil => cases b <;> simp [strcmp]
  | cons x xs ih =>
    cases b with
    | nil => simp [strcmp]
    | cons y ys =>
      by_cases h : x = y
      · simp [strcmp, h, ih]
      · by_cases h2 : x.toNat < y.toNat <;> simp [strcmp, h, h2]

theorem strncmp_eq_zero (a b : CStr) (n : Nat) : strncmp a b n = 0 ↔ a.take n = b.take n := by
  induction n generalizing a b with
  | zero => simp [strncmp]
  | succ n ih =>
    cases a with
    | nil => cases b <;> simp [strncmp]
    | cons x xs =>
      cases b with
      | nil => simp [strncmp]
      | cons y ys =>
        by_cases h : x = y
        · simp [strncmp, h, ih]
        · by_cases h2 : x.toNat < y.toNat <;> simp [strncmp, h, h2]

theorem prefixcmp_eq_zero (s p : CStr) : prefixcmp s p = 0 ↔ p <+: s := by
  induction p generalizing s with
  | nil => simp [prefixcmp]
  | cons y ys ih =>
    cases s with
    | nil => simp [prefixcmp]
    | cons x xs =>
      by_cases h : x = y
      · simp [prefixcmp, h, ih, List.cons_prefix_cons]
      · have h' : ¬ y = x := fun e => h e.symm
        by_cases h2 : x.toNat < y.toNat <;> simp [prefixcmp, h, h2, List.cons_prefix_cons, h']

theorem match_extension_iff_aux (f e : CStr) :
    match_extension f e = true ↔
      (e.length + 2 ≤ f.length ∧ f[f.length - e.length - 1]? = some '.' ∧
        f.drop (f.length - e.length) = e) := by
  unfold match_extension strlen
  by_cases h : e.length + 2 ≤ f.length
  · have h1 : ¬ ((f.length : Int) - (e.length : Int) < 2) := by omega
    have h2 : ((f.length : Int) - (e.length : Int) - 1).toNat = f.length - e.length - 1 := by omega
    have h3 : ((f.length : Int) - (e.length : Int)).toNat = f.length - e.length := by omega
    simp only [h1, h2, h3, false_or, h, true_and]
    by_cases hd : f[f.length - e.length - 1]? = some '.'
    · simp [hd, strcmp_eq_zero]
    · simp [hd]
  · have h1 : (f.length : Int) - (e.length : Int) < 2 := by omega
    simp [h1, h]

theorem strrchr_loop_append (c : Char) (a b : CStr) (i : Nat) (last : Option Nat) :
    strrchr_loop c (a ++ b) i last = strrchr_loop c b (i + a.length) (strrchr_loop c a i last) := by
  induction a generalizing i last with
  | nil => simp [strrchr_loop]
  | cons x xs ih =>
    have e : i + 1 + xs.length = i + (xs.length + 1) := by omega
    show strrchr_loop c (xs ++ b) (i + 1) (if x = c then some i else last) =
      strrchr_loop c b (i + (xs.length + 1)) (strrchr_loop c xs (i + 1) (if x = c then some i else last))
    rw [ih, e]

theorem strrchr_loop_not_mem (c : Char) (t : CStr) (i : Nat) (last : Option Nat)
    (h : c ∉ t) : strrchr_loop c t i last = last := by
  induction t generalizing i last with
  | nil => rfl
  | cons x xs ih =>
    have hx : ¬ x = c := fun e => h (by simp [e])
    have hxs : c ∉ xs := fun m => h (by simp [m])
    simp [strrchr_loop, hx, ih _ _ hxs]

theorem strrchr_split (c : Char) (a t : CStr) (h : c ∉ t) :
    strrchr (a ++ c :: t) c = some a.length := by
  unfold strrchr
  rw [strrchr_loop_append]
  simp [strrchr_loop, strrchr_loop_not_mem c t _ _ h]

theorem strrchr_eq_none (c : Char) (s : CStr) (h : c ∉ s) : strrchr s c = none :=
  strrchr_loop_not_mem c s 0 none h

theorem strrchr_loop_some (c : Char) (s : CStr) (i k : Nat) :
    strrchr_loop c s i (some k) ≠ none := by
  induction s generalizing i k with
  | nil => simp [strrchr_loop]
  | cons x xs ih =>
    by_cases hx : x = c
    · simpa [strrchr_loop, hx] using ih (i + 1) i
    · simpa [strrchr_loop, hx] using ih (i + 1) k

theorem strrchr_loop_mem (c : Char) (s : CStr) (i : Nat) (last : Option Nat) (h : c ∈ s) :
    strrchr_loop c s i last ≠ none := by
  induction s generalizing i last with
  | nil => simp at h
  | cons x xs ih =>
    by_cases hx : x = c
    · simpa [strrchr_loop, hx] using strrchr_loop_some c xs (i + 1) i
    · have hm : c ∈ xs := by
        rcases List.mem_cons.1 h with e | m
        · exact absurd e.symm hx
        · exact m
      simpa [strrchr_loop, hx] using ih (i + 1) last hm

/-- The branch of `tar_filter_config` for a key without any dot is not taken:
a key that starts with "tarfilter." has a dot. -/
theorem strrchr_ne_none_of_ns (var : CStr) (h : prefixcmp var "tarfilter.".toList = 0) :
    strrchr var '.' ≠ none := by
  obtain ⟨rest, hrest⟩ := (prefixcmp_eq_zero _ _).1 h
  refine strrchr_loop_mem '.' var 0 none ?_
  rw [← hrest]
  exact List.mem_append_left _ (by decide)

theorem strrchr_some_split (c : Char) (s : CStr) (d : Nat) (h : strrchr s c = some d) :
    ∃ a t, s = a ++ c :: t ∧ a.length = d ∧ c ∉ t := by
  induction s using List.reverseRecOn generalizing d with
  | nil => simp [strrchr, strrchr_loop] at h
  | append_singleton s x ih =>
    by_cases hx : x = c
    · subst hx
      have := strrchr_split x s [] (by simp)
      rw [this] at h
      refine ⟨s, [], rfl, by simpa using h, by simp⟩
    · have e : strrchr (s ++ [x]) c = strrchr s c := by
        unfold strrchr
        rw [strrchr_loop_append]
        simp [strrchr_loop, hx]
      rw [e] at h
      obtain ⟨a, t, hs, ha, ht⟩ := ih d h
      refine ⟨a, t ++ [x], by simp [hs], ha, ?_⟩
      simp only [List.mem_append, List.mem_singleton, not_or]
      exact ⟨ht, fun e => hx e.symm⟩

theorem split_at_dot (var t : CStr) (dot : Nat) (a rest : CStr)
    (h1 : var = "tarfilter.".toList ++ rest) (h2 : var = a ++ '.' :: t) (ha : a.length = dot)
    (ht : '.' ∉ t) (h9 : dot ≠ 9) :
    10 ≤ dot ∧ var = "tarfilter.".toList ++ (var.drop 10).take (dot - 10) ++ '.' :: t := by
  have h9' : var[9]? = some '.' := by
    rw [h1]
    show (['t', 'a', 'r', 'f', 'i', 'l', 't', 'e', 'r', '.'] ++ rest)[9]? = some '.'
    simp
  have hge : 9 ≤ dot := by
    by_contra hlt
    have hlt : a.length < 9 := by omega
    rw [h2] at h9'
    rw [List.getElem?_append_right (by omega)] at h9'
    have e : 9 - a.length = (9 - a.length - 1) + 1 := by omega
    rw [e, List.getElem?_cons_succ] at h9'
    exact ht (List.getElem?_mem h9')
  have h10 : 10 ≤ dot := by omega
  refine ⟨h10, ?_⟩
  have hpre : a = "tarfilter.".toList ++ (var.drop 10).take (dot - 10) := by
    have e1 : a = var.take dot := by rw [h2, ← ha]; simp
    have e2 : var.take dot = var.take 10 ++ (var.drop 10).take (dot - 10) := by
      have : dot = 10 + (dot - 10) := by omega
      conv_lhs => rw [this]
      rw [List.take_add]
    have e3 : var.take 10 = "tarfilter.".toList := by rw [h1]; rfl
    rw [e1, e2, e3]
  conv_lhs => rw [h2, hpre]

/-! ## The lookup loops -/

theorem first_from_eq_none (P : tar_filter → Bool) (l : List tar_filter) (k : Nat) :
    first_from P l k = none ↔ ∀ p ∈ l, P p = false := by
  induction l generalizing k with
  | nil => simp [first_from]
  | cons a l ih =>
    by_cases h : P a = true
    · simp [first_from, h]
    · simp [first_from, h, ih]

theorem first_from_eq_some (P : tar_filter → Bool) (l : List tar_filter) (k i : Nat) :
    first_from P l k = some i ↔
      k ≤ i ∧ (∃ p, l[i - k]? = some p ∧ P p = true) ∧
        ∀ j, j < i - k → ∀ q, l[j]? = some q → P q = false := by
  induction l generalizing k with
  | nil => simp [first_from]
  | cons a l ih =>
    by_cases h : P a = true
    · simp only [first_from, h, if_true, Option.some.injEq]
      constructor
      · rintro rfl
        simp [h]
      · rintro ⟨hk, ⟨p, hp, hP⟩, hall⟩
        by_contra hne
        have hpos : 0 < i - k := by omega
        have := hall 0 hpos a (by simp)
        simp [h] at this
    · have h' : P a = false := by simpa using h
      simp only [first_from, h', Bool.false_eq_true, if_false, ih]
      constructor
      · rintro ⟨hk, ⟨p, hp, hP⟩, hall⟩
        refine ⟨by omega, ⟨p, ?_, hP⟩, ?_⟩
        · have e : i - k = (i - (k + 1)) + 1 := by omega
          rw [e]; simpa using hp
        · intro j hj q hq
          cases j with
          | zero => simp at hq; subst hq; exact h'
          | succ j => exact hall j (by omega) q (by simpa using hq)
      · rintro ⟨hk, ⟨p, hp, hP⟩, hall⟩
        have hne : k ≠ i := by
          rintro rfl
          simp at hp; subst hp; simp [h'] at hP
        refine ⟨by omega, ⟨p, ?_, hP⟩, ?_⟩
        · have e : i - k = (i - (k + 1)) + 1 := by omega
          rw [e] at hp; simpa using hp
        · intro j hj q hq
          exact hall (j + 1) (by omega) q (by simpa using hq)

theorem tar_filter_by_namelen_loop_eq (name : CStr) (len : Nat) (l : List tar_filter) (k : Nat) :
    tar_filter_by_namelen_loop name len l k =
      first_from (fun p => decide (strncmp p.name name len = 0 ∧ p.name[len]? = none)) l k := by
  induction l generalizing k with
  | nil => rfl
  | cons a l ih => simp [tar_filter_by_namelen_loop, first_from, ih]

theorem extensions_match_iff (filename : CStr) (exts : List CStr) :
    extensions_match filename exts = true ↔ ∃ e ∈ exts, match_extension filename e = true := by
  induction exts with
  | nil => simp [extensions_match]
  | cons a l ih =>
    by_cases h : match_extension filename a = true
    · simp [extensions_match, h]
    · simp [extensions_match, h, ih]

theorem tar_filter_by_extension_loop_eq (filename : CStr) (l : List tar_filter) (k : Nat) :
    tar_filter_by_extension_loop filename l k =
      first_from (fun p => extensions_match filename p.extensions) l k := by
  induction l generalizing k with
  | nil => rfl
  | cons a l ih => simp [tar_filter_by_extension_loop, first_from, ih]

/-- The test of `tar_filter_by_namelen` selects the names equal to the first
`len` characters of `name`, when `name` has that many. -/
theorem namelen_test_iff (pname name : CStr) (len : Nat) (h : len ≤ name.length) :
    (strncmp pname name len = 0 ∧ pname[len]? = none) ↔ pname = name.take len := by
  rw [strncmp_eq_zero]
  constructor
  · rintro ⟨h1, h2⟩
    have h3 : pname.length ≤ len := by simpa using h2
    rw [← h1, List.take_of_length_le h3]
  · intro e
    have hl : pname.length = len := by simp [e, h]
    refine ⟨?_, ?_⟩
    · rw [List.take_of_length_le (by omega)]; exact e
    · simp [hl]

theorem tar_filter_by_namelen_eq (reg : List tar_filter) (name : CStr) (len : Nat)
    (h : len ≤ name.length) :
    tar_filter_by_namelen reg name len =
      first_from (fun p => decide (p.name = name.take len)) reg 0 := by
  unfold tar_filter_by_namelen
  rw [tar_filter_by_namelen_loop_eq]
  congr 1
  funext p
  simp only [namelen_test_iff p.name name len h]

theorem tar_filter_by_name_eq (reg : List tar_filter) (n : CStr) :
    tar_filter_by_name reg n = first_from (fun p => decide (p.name = n)) reg 0 := by
  unfold tar_filter_by_name strlen
  rw [tar_filter_by_namelen_eq reg n n.length (Nat.le_refl _), List.take_length]

theorem tar_filter_by_name_eq_none (reg : List tar_filter) (n : CStr) :
    tar_filter_by_name reg n = none ↔ ∀ p ∈ reg, p.name ≠ n := by
  rw [tar_filter_by_name_eq, first_from_eq_none]
  simp

theorem tar_filter_by_name_eq_some (reg : List tar_filter) (n : CStr) (i : Nat) :
    tar_filter_by_name reg n = some i ↔
      (∃ p, reg[i]? = some p ∧ p.name = n) ∧
        ∀ j, j < i → ∀ q, reg[j]? = some q → q.name ≠ n := by
  rw [tar_filter_by_name_eq, first_from_eq_some]
  simp

theorem assign_id (l : List tar_filter) (i : Nat) : assign (fun p => p) l i = l := by
  induction l generalizing i with
  | nil => rfl
  | cons a l ih => cases i <;> simp [assign, ih]

theorem length_assign (f : tar_filter → tar_filter) (l : List tar_filter) (i : Nat) :
    (assign f l i).length = l.length := by
  induction l generalizing i with
  | nil => rfl
  | cons a l ih => cases i <;> simp [assign, ih]

theorem map_name_assign (f : tar_filter → tar_filter) (hf : ∀ p, (f p).name = p.name)
    (l : List tar_filter) (i : Nat) :
    (assign f l i).map tar_filter.name = l.map tar_filter.name := by
  induction l generalizing i with
  | nil => rfl
  | cons a l ih => cases i <;> simp [assign, ih, hf]

theorem getElem?_assign_ne (f : tar_filter → tar_filter) (l : List tar_filter) (i j : Nat)
    (h : j ≠ i) : (assign f l i)[j]? = l[j]? := by
  induction l generalizing i j with
  | nil => rfl
  | cons a l ih =>
    cases i with
    | zero =>
      cases j with
      | zero => exact absurd rfl h
      | succ j => simp [assign]
    | succ i =>
      cases j with
      | zero => simp [assign]
      | succ j => simpa [assign] using ih i j (by omega)

theorem getElem?_assign_eq (f : tar_filter → tar_filter) (l : List tar_filter) (i : Nat) :
    (assign f l i)[i]? = l[i]?.map f := by
  induction l generalizing i with
  | nil => rfl
  | cons a l ih =>
    cases i with
    | zero => simp [assign]
    | succ i => simpa [assign] using ih i

theorem assign_append_length (f : tar_filter → tar_filter) (l : List tar_filter)
    (a : tar_filter) : assign f (l ++ [a]) l.length = l ++ [f a] := by
  induction l with
  | nil => rfl
  | cons b l ih => simp [assign, ih]

theorem assign_eq_set (f : tar_filter → tar_filter) (l : List tar_filter) (i : Nat)
    (p : tar_filter) (h : l[i]? = some p) : assign f l i = l.set i (f p) := by
  induction l generalizing i with
  | nil => simp at h
  | cons a l ih =>
    cases i with
    | zero => simp at h; simp [assign, h]
    | succ i => simp at h; simp [assign, ih i h]

/-! ## One configuration key -/

theorem prefixcmp_ns (rest : CStr) : prefixcmp ("tarfilter.".toList ++ rest) "tarfilter.".toList = 0 := by
  rw [prefixcmp_eq_zero]
  exact List.prefix_append _ _

theorem tar_filter_config_key (gcb : CStr → Option CStr → Bool) (n t : CStr)
    (value : Option CStr) (reg : List tar_filter) (ht : '.' ∉ t) :
    tar_filter_config gcb ("tarfilter.".toList ++ n ++ '.' :: t) value reg =
      config_attr gcb ("tarfilter.".toList ++ n ++ '.' :: t) n t value reg := by
  have h1 : prefixcmp ("tarfilter.".toList ++ n ++ '.' :: t) "tarfilter.".toList = 0 := by
    rw [List.append_assoc]; exact prefixcmp_ns _
  have h2 : strrchr ("tarfilter.".toList ++ n ++ '.' :: t) '.' = some (10 + n.length) := by
    rw [strrchr_split '.' ("tarfilter.".toList ++ n) t ht]
    simp
    omega
  have h3 : ("tarfilter.".toList ++ n ++ '.' :: t).drop 10 = n ++ '.' :: t := by
    rw [List.append_assoc]
    exact List.drop_left' rfl
  have h4 : ("tarfilter.".toList ++ n ++ '.' :: t).drop (10 + n.length + 1) = t := by
    have : "tarfilter.".toList ++ n ++ '.' :: t = ("tarfilter.".toList ++ n ++ ['.']) ++ t := by
      simp
    rw [this]
    exact List.drop_left' (by simp; omega)
  have h5 : tar_filter_by_namelen reg (n ++ '.' :: t) n.length = tar_filter_by_name reg n := by
    rw [tar_filter_by_namelen_eq reg _ _ (by simp), tar_filter_by_name_eq]
    simp
  have h6 : (n ++ '.' :: t).take n.length = n := by simp
  unfold tar_filter_config config_attr
  simp only [h1, h2, h3, h4, h5, h6, ne_eq, not_true_eq_false, if_false, tar_filter_new,
    strcmp_eq_zero, config_error_nonbool, Nat.add_sub_cancel_left]
  have h7 : ¬ (10 + n.length = 9) := by omega
  simp only [h7, if_false]

theorem config_key_name_split (n t : CStr) (ht : '.' ∉ t) :
    config_key_name ("tarfilter.".toList ++ n ++ '.' :: t) = some n := by
  have h1 : prefixcmp ("tarfilter.".toList ++ n ++ '.' :: t) "tarfilter.".toList = 0 := by
    rw [List.append_assoc]; exact prefixcmp_ns _
  have h2 : strrchr ("tarfilter.".toList ++ n ++ '.' :: t) '.' = some (10 + n.length) := by
    rw [strrchr_split '.' ("tarfilter.".toList ++ n) t ht]
    simp
    omega
  have h3 : ("tarfilter.".toList ++ n ++ '.' :: t).drop 10 = n ++ '.' :: t := by
    rw [List.append_assoc]
    exact List.drop_left' rfl
  have h7 : ¬ (10 + n.length = 9) := by omega
  have h6 : (n ++ '.' :: t).take n.length = n := by simp
  unfold config_key_name
  simp only [h1, h2, h3, h7, h6, ne_eq, not_true_eq_false, if_false, Nat.add_sub_cancel_left]

theorem config_key_name_some (var n : CStr) (h : config_key_name var = some n) :
    ∃ t, var = "tarfilter.".toList ++ n ++ '.' :: t ∧ '.' ∉ t := by
  unfold config_key_name at h
  by_cases hp : prefixcmp var "tarfilter.".toList = 0
  · simp only [hp, ne_eq, not_true_eq_false, if_false] at h
    obtain ⟨rest, hrest⟩ := (prefixcmp_eq_zero _ _).1 hp
    cases hs : strrchr var '.' with
    | none => simp [hs] at h
    | some dot =>
      simp only [hs] at h
      by_cases h9 : dot = 9
      · simp [h9] at h
      · simp only [h9, if_false, Option.some.injEq] at h
        obtain ⟨a, t, hv, ha, ht⟩ := strrchr_some_split '.' var dot hs
        obtain ⟨_, hv'⟩ := split_at_dot var t dot a rest hrest.symm hv ha ht h9
        exact ⟨t, by rw [← h]; exact hv', ht⟩
  · simp only [hp, ne_eq, not_false_eq_true, if_true] at h
    cases h

theorem tar_filter_config_none (gcb : CStr → Option CStr → Bool) (var : CStr)
    (value : Option CStr) (reg : List tar_filter) (h : config_key_name var = none) :
    tar_filter_config gcb var value reg = (reg, 0) := by
  unfold config_key_name at h
  unfold tar_filter_config
  by_cases hp : prefixcmp var "tarfilter.".toList = 0
  · simp only [hp, ne_eq, not_true_eq_false, if_false] at h ⊢
    cases hs : strrchr var '.' with
    | none => rfl
    | some dot =>
      simp only [hs] at h ⊢
      by_cases h9 : dot = 9
      · simp only [h9, if_true]
      · simp only [h9, if_false] at h
        cases h
  · simp only [hp, ne_eq, not_false_eq_true, if_true]

theorem tar_filter_config_some (gcb : CStr → Option CStr → Bool) (var n : CStr)
    (value : Option CStr) (reg : List tar_filter) (h : config_key_name var = some n) :
    ∃ t, '.' ∉ t ∧ tar_filter_config gcb var value reg = config_attr gcb var n t value reg := by
  obtain ⟨t, hv, ht⟩ := config_key_name_some var n h
  refine ⟨t, ht, ?_⟩
  rw [hv]
  exact tar_filter_config_key gcb n t value reg ht

/-- Every effect of `config_attr` is one assignment through the pointer found
or created, by a function that keeps the name. -/
theorem config_attr_shape (gcb : CStr → Option CStr → Bool) (var n t : CStr)
    (value : Option CStr) (reg : List tar_filter) :
    ∃ f : tar_filter → tar_filter, (∀ p, (f p).name = p.name) ∧
      (config_attr gcb var n t value reg).1 =
        match tar_filter_by_name reg n with
        | some tf => assign f reg tf
        | none => reg ++ [f (fresh n)] := by
  unfold config_attr
  by_cases h1 : t = "command".toList
  · rw [if_pos h1]
    cases value with
    | none =>
      refine ⟨fun p => p, fun _ => rfl, ?_⟩
      cases tar_filter_by_name reg n <;> simp only [assign_id, fresh]
    | some v =>
      refine ⟨fun p => { p with command := some v }, fun _ => rfl, ?_⟩
      cases tar_filter_by_name reg n <;> simp only [assign_append_length, fresh]
  · rw [if_neg h1]
    by_cases h2 : t = "extension".toList
    · rw [if_pos h2]
      cases value with
      | none =>
        refine ⟨fun p => p, fun _ => rfl, ?_⟩
        cases tar_filter_by_name reg n <;> simp only [assign_id, fresh]
      | some v =>
        refine ⟨fun p => { p with extensions := p.extensions ++ [v] }, fun _ => rfl, ?_⟩
        cases tar_filter_by_name reg n <;> simp only [assign_append_length, fresh]
    · rw [if_neg h2]
      by_cases h3 : t = "compressionlevels".toList
      · rw [if_pos h3]
        refine ⟨fun p => { p with use_compression := gcb var value }, fun _ => rfl, ?_⟩
        cases tar_filter_by_name reg n <;> simp only [assign_append_length, fresh]
      · rw [if_neg h3]
        refine ⟨fun p => p, fun _ => rfl, ?_⟩
        cases tar_filter_by_name reg n <;> simp only [assign_id, fresh]

/-! ## Loading -/

theorem config_key_name_eq_some_iff (var n : CStr) :
    config_key_name var = some n ↔
      ∃ t, var = "tarfilter.".toList ++ n ++ '.' :: t ∧ '.' ∉ t := by
  constructor
  · exact config_key_name_some var n
  · rintro ⟨t, rfl, ht⟩
    exact config_key_name_split n t ht

theorem has_command_iff (p : tar_filter) :
    has_command p = true ↔ ∃ c, p.command = some c ∧ c ≠ [] := by
  unfold has_command
  cases h : p.command with
  | none => simp
  | some c => cases c <;> simp

theorem remove_filters_without_command_loop_eq (kept l : List tar_filter) :
    remove_filters_without_command_loop kept l = kept ++ l.filter has_command := by
  induction l generalizing kept with
  | nil => simp [remove_filters_without_command_loop]
  | cons a l ih =>
    by_cases h : has_command a = true
    · simp [remove_filters_without_command_loop, h, ih]
    · simp [remove_filters_without_command_loop, h, ih]

theorem remove_filters_without_command_eq (l : List tar_filter) :
    remove_filters_without_command l = l.filter has_command := by
  unfold remove_filters_without_command
  rw [remove_filters_without_command_loop_eq]
  rfl

theorem tar_filter_load_config_init (gcb : CStr → Option CStr → Bool)
    (config : List (CStr × Option CStr)) :
    (tar_filter_load_config gcb config State.init).tar_filters =
      (git_config (tar_filter_config gcb) config (load_builtin_filters [])).filter
        has_command := by
  unfold tar_filter_load_config State.init
  simp only [Bool.false_eq_true, if_false]
  exact remove_filters_without_command_eq _

/-- The effect of one key on the list, by the name the key addresses. -/
theorem tar_filter_config_shape (gcb : CStr → Option CStr → Bool) (var : CStr)
    (value : Option CStr) (reg : List tar_filter) :
    (config_key_name var = none ∧ tar_filter_config gcb var value reg = (reg, 0)) ∨
    ∃ n, config_key_name var = some n ∧
      ∃ f : tar_filter → tar_filter, (∀ p, (f p).name = p.name) ∧
        (tar_filter_config gcb var value reg).1 =
          match tar_filter_by_name reg n with
          | some tf => assign f reg tf
          | none => reg ++ [f (fresh n)] := by
  cases h : config_key_name var with
  | none => exact Or.inl ⟨rfl, tar_filter_config_none gcb var value reg h⟩
  | some n =>
    refine Or.inr ⟨n, rfl, ?_⟩
    obtain ⟨t, _, ht⟩ := tar_filter_config_some gcb var n value reg h
    rw [ht]
    exact config_attr_shape gcb var n t value reg

theorem tar_filter_config_nodup (gcb : CStr → Option CStr → Bool) (var : CStr)
    (value : Option CStr) (reg : List tar_filter)
    (h : (reg.map tar_filter.name).Nodup) :
    ((tar_filter_config gcb var value reg).1.map tar_filter.name).Nodup := by
  rcases tar_filter_config_shape gcb var value reg with ⟨_, h0⟩ | ⟨n, _, f, hf, hs⟩
  · rw [h0]; exact h
  · rw [hs]
    cases hb : tar_filter_by_name reg n with
    | some tf =>
      simp only
      rw [map_name_assign f hf]
      exact h
    | none =>
      simp only
      rw [List.map_append, List.map_singleton, hf, List.nodup_append]
      refine ⟨h, List.nodup_singleton _, ?_⟩
      intro a ha hb'
      have hn : a = n := by simpa [fresh] using hb'
      subst hn
      obtain ⟨p, hp, hpn⟩ := List.mem_map.1 ha
      exact (tar_filter_by_name_eq_none reg _).1 hb p hp hpn

theorem git_config_nodup (gcb : CStr → Option CStr → Bool)
    (config : List (CStr × Option CStr)) (reg : List tar_filter)
    (h : (reg.map tar_filter.name).Nodup) :
    ((git_config (tar_filter_config gcb) config reg).map tar_filter.name).Nodup := by
  induction config generalizing reg with
  | nil => exact h
  | cons kv rest ih =>
    obtain ⟨var, value⟩ := kv
    exact ih _ (tar_filter_config_nodup gcb var value reg h)

theorem config_key_name_no_name (t : CStr) (ht : '.' ∉ t) :
    config_key_name ("tarfilter.".toList ++ t) = none := by
  have h1 : prefixcmp ("tarfilter.".toList ++ t) "tarfilter.".toList = 0 := prefixcmp_ns t
  have h2 : strrchr ("tarfilter.".toList ++ t) '.' = some 9 :=
    strrchr_split '.' "tarfilter".toList t ht
  unfold config_key_name
  simp only [h1, h2, ne_eq, not_true_eq_false, if_false, if_true]

theorem tar_filter_config_head (gcb : CStr → Option CStr → Bool) (var : CStr)
    (value : Option CStr) (reg : List tar_filter) (a : tar_filter)
    (h : reg[0]? = some a) (hn : config_key_name var ≠ some a.name) :
    (tar_filter_config gcb var value reg).1[0]? = some a := by
  rcases tar_filter_config_shape gcb var value reg with ⟨_, h0⟩ | ⟨n, hk, f, _, hs⟩
  · rw [h0]; exact h
  · rw [hs]
    cases hb : tar_filter_by_name reg n with
    | some tf =>
      simp only
      have htf : (0 : Nat) ≠ tf := by
        rintro rfl
        obtain ⟨⟨p, hp, hpn⟩, _⟩ := (tar_filter_by_name_eq_some reg n 0).1 hb
        rw [h] at hp
        cases hp
        exact hn (by rw [hk, hpn])
      rw [getElem?_assign_ne f reg tf 0 htf]
      exact h
    | none =>
      simp only
      cases reg with
      | nil => simp at h
      | cons b l => simpa using h

theorem git_config_head (gcb : CStr → Option CStr → Bool)
    (config : List (CStr × Option CStr)) (reg : List tar_filter) (a : tar_filter)
    (h : reg[0]? = some a) (hn : ∀ kv ∈ config, config_key_name kv.1 ≠ some a.name) :
    (git_config (tar_filter_config gcb) config reg)[0]? = some a := by
  induction config generalizing reg with
  | nil => exact h
  | cons kv rest ih =>
    obtain ⟨var, value⟩ := kv
    refine ih _ (tar_filter_config_head gcb var value reg a h ?_) ?_
    · exact hn (var, value) (by simp)
    · intro kv hkv
      exact hn kv (by simp [hkv])

/-! ## One key as an update by name -/

theorem first_from_succ (P : tar_filter → Bool) (l : List tar_filter) (k : Nat) :
    first_from P l (k + 1) = (first_from P l k).map (· + 1) := by
  induction l generalizing k with
  | nil => rfl
  | cons a l ih =>
    by_cases h : P a = true
    · simp [first_from, h]
    · simp [first_from, h, ih]

theorem upd_eq (n : CStr) (f : tar_filter → tar_filter) (reg : List tar_filter) :
    upd n f reg =
      match tar_filter_by_name reg n with
      | some i => assign f reg i
      | none => reg ++ [f (fresh n)] := by
  rw [tar_filter_by_name_eq]
  induction reg with
  | nil => rfl
  | cons a l ih =>
    by_cases h : a.name = n
    · simp [upd, first_from, h, assign]
    · simp only [upd, first_from, h, if_false, decide_False, Bool.false_eq_true]
      rw [first_from_succ, ih]
      cases first_from (fun p => decide (p.name = n)) l 0 <;> simp [assign]

theorem config_attr_fst (gcb : CStr → Option CStr → Bool) (var n t : CStr)
    (value : Option CStr) (reg : List tar_filter) :
    (config_attr gcb var n t value reg).1 = upd n (attr_fn gcb var t value) reg := by
  rw [upd_eq]
  unfold config_attr attr_fn
  by_cases h1 : t = "command".toList
  · simp only [if_pos h1]
    cases value <;> cases tar_filter_by_name reg n <;>
      simp only [assign_id, assign_append_length, fresh]
  · simp only [if_neg h1]
    by_cases h2 : t = "extension".toList
    · simp only [if_pos h2]
      cases value <;> cases tar_filter_by_name reg n <;>
        simp only [assign_id, assign_append_length, fresh]
    · simp only [if_neg h2]
      by_cases h3 : t = "compressionlevels".toList
      · simp only [if_pos h3]
        cases tar_filter_by_name reg n <;> simp only [assign_append_length, fresh]
      · simp only [if_neg h3]
        cases tar_filter_by_name reg n <;> simp only [assign_id, fresh]

theorem config_key_type_split (n t : CStr) (ht : '.' ∉ t) :
    config_key_type ("tarfilter.".toList ++ n ++ '.' :: t) = t := by
  have h2 : strrchr ("tarfilter.".toList ++ n ++ '.' :: t) '.' = some (10 + n.length) := by
    rw [strrchr_split '.' ("tarfilter.".toList ++ n) t ht]
    simp
    omega
  have h4 : ("tarfilter.".toList ++ n ++ '.' :: t).drop (10 + n.length + 1) = t := by
    have : "tarfilter.".toList ++ n ++ '.' :: t = ("tarfilter.".toList ++ n ++ ['.']) ++ t := by
      simp
    rw [this]
    exact List.drop_left' (by simp; omega)
  unfold config_key_type
  simp only [h2, h4]

/-- The list after one key: unchanged for a key left aside, otherwise the
definition the key names is updated, or created, by the assignment of the
attribute. -/
theorem tar_filter_config_fst (gcb : CStr → Option CStr → Bool) (var : CStr)
    (value : Option CStr) (reg : List tar_filter) :
    (tar_filter_config gcb var value reg).1 =
      match config_key_name var with
      | none => reg
      | some n => upd n (attr_fn gcb var (config_key_type var) value) reg := by
  cases h : config_key_name var with
  | none => simp only [tar_filter_config_none gcb var value reg h]
  | some n =>
    obtain ⟨t, hv, ht⟩ := config_key_name_some var n h
    simp only
    rw [hv, config_key_type_split n t ht, tar_filter_config_key gcb n t value reg ht,
      config_attr_fst]

theorem attr_fn_name (gcb : CStr → Option CStr → Bool) (var t : CStr) (value : Option CStr)
    (p : tar_filter) : (attr_fn gcb var t value p).name = p.name := by
  unfold attr_fn
  split
  · cases value <;> rfl
  · split
    · cases value <;> rfl
    · split <;> rfl

theorem attr_fn_extensions (gcb : CStr → Option CStr → Bool) (var t : CStr)
    (value : Option CStr) (p : tar_filter) (e : CStr) (he : e ∈ p.extensions) :
    e ∈ (attr_fn gcb var t value p).extensions := by
  unfold attr_fn
  split
  · cases value <;> exact he
  · split
    · cases value with
      | none => exact he
      | some v => exact List.mem_append_left _ he
    · split <;> exact he

theorem attr_fn_command (gcb : CStr → Option CStr → Bool) (var t : CStr)
    (value : Option CStr) (p : tar_filter) (ht : t ≠ "command".toList) :
    (attr_fn gcb var t value p).command = p.command := by
  unfold attr_fn
  rw [if_neg ht]
  split
  · cases value <;> rfl
  · split <;> rfl

theorem attr_fn_none (gcb : CStr → Option CStr → Bool) (var t : CStr) (p : tar_filter)
    (ht : t = "command".toList ∨ t = "extension".toList) :
    attr_fn gcb var t none p = p := by
  unfold attr_fn
  rcases ht with h | h
  · rw [if_pos h]
  · by_cases h1 : t = "command".toList
    · rw [if_pos h1]
    · rw [if_neg h1, if_pos h]

/-! ## Updates by name and the definitions of one name -/

theorem upd_filter_ne_other (m n : CStr) (f : tar_filter → tar_filter)
    (hf : ∀ p, (f p).name = p.name) (hmn : m ≠ n) (l : List tar_filter) :
    (upd m f l).filter (fun p => !decide (p.name = n)) =
      upd m f (l.filter (fun p => !decide (p.name = n))) := by
  induction l with
  | nil => simp [upd, hf, fresh, hmn]
  | cons a l ih =>
    by_cases h : a.name = m
    · have han : ¬ a.name = n := fun e => hmn (h.symm.trans e)
      simp [upd, h, hf, hmn]
    · have hnm : ¬ n = m := fun e => hmn e.symm
      by_cases han : a.name = n
      · simp [upd, han, hnm, ih]
      · simp [upd, h, han, ih]

theorem upd_filter_ne_self (n : CStr) (f : tar_filter → tar_filter)
    (hf : ∀ p, (f p).name = p.name) (l : List tar_filter) :
    (upd n f l).filter (fun p => !decide (p.name = n)) =
      l.filter (fun p => !decide (p.name = n)) := by
  induction l with
  | nil => simp [upd, hf, fresh]
  | cons a l ih =>
    by_cases h : a.name = n
    · simp [upd, h, hf]
    · simp [upd, h, ih]

theorem upd_filter_eq_other (m n : CStr) (f : tar_filter → tar_filter)
    (hf : ∀ p, (f p).name = p.name) (hmn : m ≠ n) (l : List tar_filter) :
    (upd m f l).filter (fun p => decide (p.name = n)) =
      l.filter (fun p => decide (p.name = n)) := by
  induction l with
  | nil => simp [upd, hf, fresh, hmn]
  | cons a l ih =>
    by_cases h : a.name = m
    · have han : ¬ a.name = n := fun e => hmn (h.symm.trans e)
      simp [upd, h, hf, hmn]
    · have hnm : ¬ n = m := fun e => hmn e.symm
      by_cases han : a.name = n
      · simp [upd, han, hnm, ih]
      · simp [upd, h, han, ih]

theorem upd_filter_eq_self (n : CStr) (f : tar_filter → tar_filter)
    (hf : ∀ p, (f p).name = p.name) (l : List tar_filter) :
    (upd n f l).filter (fun p => decide (p.name = n)) =
      match l.filter (fun p => decide (p.name = n)) with
      | [] => [f (fresh n)]
      | v :: vs => f v :: vs := by
  induction l with
  | nil => simp [upd, hf, fresh]
  | cons a l ih =>
    by_cases h : a.name = n
    · simp [upd, h, hf]
    · simp [upd, h, ih]

theorem mem_upd (n : CStr) (f : tar_filter → tar_filter) (l : List tar_filter)
    (p : tar_filter) (h : p ∈ upd n f l) :
    p ∈ l ∨ ∃ q, (q ∈ l ∨ q = fresh n) ∧ q.name = n ∧ p = f q := by
  induction l with
  | nil =>
    simp only [upd, List.mem_singleton] at h
    exact Or.inr ⟨fresh n, Or.inr rfl, rfl, h⟩
  | cons a l ih =>
    by_cases ha : a.name = n
    · simp only [upd, ha, if_true, List.mem_cons] at h
      rcases h with h | h
      · exact Or.inr ⟨a, Or.inl (List.mem_cons_self _ _), ha, h⟩
      · exact Or.inl (List.mem_cons_of_mem _ h)
    · simp only [upd, ha, if_false, List.mem_cons] at h
      rcases h with h | h
      · exact Or.inl (by rw [h]; exact List.mem_cons_self _ _)
      · rcases ih h with h' | ⟨q, hq, hqn, hpq⟩
        · exact Or.inl (List.mem_cons_of_mem _ h')
        · refine Or.inr ⟨q, ?_, hqn, hpq⟩
          rcases hq with hq | hq
          · exact Or.inl (List.mem_cons_of_mem _ hq)
          · exact Or.inr hq

/-! ## A key given without a value -/

theorem tar_filter_config_eq_attr (gcb : CStr → Option CStr → Bool) (var n : CStr)
    (value : Option CStr) (reg : List tar_filter) (h : config_key_name var = some n) :
    tar_filter_config gcb var value reg =
      config_attr gcb var n (config_key_type var) value reg := by
  obtain ⟨t, hv, ht⟩ := config_key_name_some var n h
  rw [hv, config_key_type_split n t ht]
  exact tar_filter_config_key gcb n t value reg ht

theorem config_attr_none_snd (gcb : CStr → Option CStr → Bool) (var n t : CStr)
    (reg : List tar_filter) (ht : t = "command".toList ∨ t = "extension".toList) :
    (config_attr gcb var n t none reg).2 = -1 := by
  unfold config_attr
  rcases ht with h | h
  · rw [if_pos h]
  · by_cases h1 : t = "command".toList
    · rw [if_pos h1]
    · rw [if_neg h1, if_pos h]

theorem step_others_congr (gcb : CStr → Option CStr → Bool) (var n : CStr)
    (value : Option CStr) (l1 l2 : List tar_filter)
    (h : l1.filter (fun p => !decide (p.name = n)) = l2.filter (fun p => !decide (p.name = n))) :
    (tar_filter_config gcb var value l1).1.filter (fun p => !decide (p.name = n)) =
      (tar_filter_config gcb var value l2).1.filter (fun p => !decide (p.name = n)) := by
  rw [tar_filter_config_fst, tar_filter_config_fst]
  cases hk : config_key_name var with
  | none => exact h
  | some m =>
    simp only
    by_cases hmn : m = n
    · subst hmn
      rw [upd_filter_ne_self _ _ (attr_fn_name gcb var _ value),
        upd_filter_ne_self _ _ (attr_fn_name gcb var _ value)]
      exact h
    · rw [upd_filter_ne_other _ _ _ (attr_fn_name gcb var _ value) hmn,
        upd_filter_ne_other _ _ _ (attr_fn_name gcb var _ value) hmn, h]

theorem git_config_others_congr (gcb : CStr → Option CStr → Bool) (n : CStr)
    (config : List (CStr × Option CStr)) (l1 l2 : List tar_filter)
    (h : l1.filter (fun p => !decide (p.name = n)) = l2.filter (fun p => !decide (p.name = n))) :
    (git_config (tar_filter_config gcb) config l1).filter (fun p => !decide (p.name = n)) =
      (git_config (tar_filter_config gcb) config l2).filter
        (fun p => !decide (p.name = n)) := by
  induction config generalizing l1 l2 with
  | nil => exact h
  | cons kv rest ih =>
    obtain ⟨var, value⟩ := kv
    exact ih _ _ (step_others_congr gcb var n value l1 l2 h)

theorem step_named_rel (gcb : CStr → Option CStr → Bool) (var n : CStr)
    (value : Option CStr) (l1 l2 : List tar_filter) (h : named_rel n l1 l2) :
    named_rel n (tar_filter_config gcb var value l1).1 (tar_filter_config gcb var value l2).1 := by
  unfold named_rel at h ⊢
  rw [tar_filter_config_fst, tar_filter_config_fst]
  cases hk : config_key_name var with
  | none => exact h
  | some m =>
    simp only
    by_cases hmn : m = n
    · subst hmn
      rw [upd_filter_eq_self _ _ (attr_fn_name gcb var _ value),
        upd_filter_eq_self _ _ (attr_fn_name gcb var _ value)]
      rcases h with h | ⟨h1, h2⟩
      · exact Or.inl (by rw [h])
      · exact Or.inl (by rw [h1, h2])
    · rw [upd_filter_eq_other _ _ _ (attr_fn_name gcb var _ value) hmn,
        upd_filter_eq_other _ _ _ (attr_fn_name gcb var _ value) hmn]
      exact h

theorem git_config_named_rel (gcb : CStr → Option CStr → Bool) (n : CStr)
    (config : List (CStr × Option CStr)) (l1 l2 : List tar_filter) (h : named_rel n l1 l2) :
    named_rel n (git_config (tar_filter_config gcb) config l1)
      (git_config (tar_filter_config gcb) config l2) := by
  induction config generalizing l1 l2 with
  | nil => exact h
  | cons kv rest ih =>
    obtain ⟨var, value⟩ := kv
    exact ih _ _ (step_named_rel gcb var n value l1 l2 h)

theorem git_config_append (gcb : CStr → Option CStr → Bool)
    (c1 c2 : List (CStr × Option CStr)) (l : List tar_filter) :
    git_config (tar_filter_config gcb) (c1 ++ c2) l =
      git_config (tar_filter_config gcb) c2 (git_config (tar_filter_config gcb) c1 l) := by
  induction c1 generalizing l with
  | nil => rfl
  | cons kv rest ih =>
    obtain ⟨var, value⟩ := kv
    exact ih _

theorem filter_has_command_named (n : CStr) (l1 l2 : List tar_filter)
    (h : named_rel n l1 l2) :
    (l1.filter has_command).filter (fun p => decide (p.name = n)) =
      (l2.filter has_command).filter (fun p => decide (p.name = n)) := by
  have hc : ∀ l : List tar_filter,
      (l.filter has_command).filter (fun p => decide (p.name = n)) =
        (l.filter (fun p => decide (p.name = n))).filter has_command := by
    intro l
    rw [List.filter_filter, List.filter_filter]
    congr 1
    funext p
    exact Bool.and_comm _ _
  rw [hc, hc]
  rcases h with h | ⟨h1, h2⟩
  · rw [h]
  · rw [h1, h2]
    rfl

theorem filter_has_command_others (n : CStr) (l1 l2 : List tar_filter)
    (h : l1.filter (fun p => !decide (p.name = n)) = l2.filter (fun p => !decide (p.name = n))) :
    (l1.filter has_command).filter (fun p => !decide (p.name = n)) =
      (l2.filter has_command).filter (fun p => !decide (p.name = n)) := by
  have hc : ∀ l : List tar_filter,
      (l.filter has_command).filter (fun p => !decide (p.name = n)) =
        (l.filter (fun p => !decide (p.name = n))).filter has_command := by
    intro l
    rw [List.filter_filter, List.filter_filter]
    congr 1
    funext p
    exact Bool.and_comm _ _
  rw [hc, hc, h]

/-- Loading a configuration with a valueless `command` or `extension` key and
loading it without the key: the definitions of the other names are the same
lists, and so are the definitions of the name of the key. -/
theorem load_without_valueless_key (gcb : CStr → Option CStr → Bool) (var n : CStr)
    (pre post : List (CStr × Option CStr)) (hk : config_key_name var = some n)
    (ht : config_key_type var = "command".toList ∨ config_key_type var = "extension".toList) :
    ((tar_filter_load_config gcb (pre ++ (var, none) :: post) State.init).tar_filters.filter
        (fun p => !decide (p.name = n)) =
      (tar_filter_load_config gcb (pre ++ post) State.init).tar_filters.filter
        (fun p => !decide (p.name = n))) ∧
    ((tar_filter_load_config gcb (pre ++ (var, none) :: post) State.init).tar_filters.filter
        (fun p => decide (p.name = n)) =
      (tar_filter_load_config gcb (pre ++ post) State.init).tar_filters.filter
        (fun p => decide (p.name = n))) := by
  rw [tar_filter_load_config_init, tar_filter_load_config_init, git_config_append,
    git_config_append]
  generalize git_config (tar_filter_config gcb) pre (load_builtin_filters []) = l
  have hstep : (tar_filter_config gcb var none l).1 = upd n (fun p => p) l := by
    rw [tar_filter_config_fst, hk]
    simp only
    congr 1
    funext p
    exact attr_fn_none gcb var _ p ht
  have h1 : (git_config (tar_filter_config gcb) ((var, none) :: post) l) =
      git_config (tar_filter_config gcb) post (upd n (fun p => p) l) := by
    show git_config (tar_filter_config gcb) post (tar_filter_config gcb var none l).1 = _
    rw [hstep]
  rw [h1]
  constructor
  · apply filter_has_command_others
    apply git_config_others_congr
    exact upd_filter_ne_self n _ (fun _ => rfl) l
  · apply filter_has_command_named
    apply git_config_named_rel
    unfold named_rel
    rw [upd_filter_eq_self n _ (fun _ => rfl) l]
    cases hl : l.filter (fun p => decide (p.name = n)) with
    | nil => exact Or.inr ⟨rfl, rfl⟩
    | cons v vs => exact Or.inl rfl

/-! ## Invariants of the load -/

theorem git_config_forall (gcb : CStr → Option CStr → Bool) (Q : tar_filter → Prop)
    (config : List (CStr × Option CStr)) (reg : List tar_filter)
    (h0 : ∀ p ∈ reg, Q p)
    (hfresh : ∀ kv ∈ config, ∀ m, config_key_name kv.1 = some m →
      Q (attr_fn gcb kv.1 (config_key_type kv.1) kv.2 (fresh m)))
    (hstep : ∀ kv ∈ config, ∀ q, config_key_name kv.1 = some q.name → Q q →
      Q (attr_fn gcb kv.1 (config_key_type kv.1) kv.2 q)) :
    ∀ p ∈ git_config (tar_filter_config gcb) config reg, Q p := by
  induction config generalizing reg with
  | nil => exact h0
  | cons kv rest ih =>
    obtain ⟨var, value⟩ := kv
    refine ih _ ?_ (fun kv hkv => hfresh kv (List.mem_cons_of_mem _ hkv))
      (fun kv hkv => hstep kv (List.mem_cons_of_mem _ hkv))
    intro p hp
    rw [tar_filter_config_fst] at hp
    cases hk : config_key_name var with
    | none =>
      rw [hk] at hp
      exact h0 p hp
    | some m =>
      rw [hk] at hp
      rcases mem_upd m _ reg p hp with h | ⟨q, hq, hqn, hpq⟩
      · exact h0 p h
      · rw [hpq]
        rcases hq with hq | hq
        · exact hstep (var, value) (List.mem_cons_self _ _) q (by rw [hk, hqn]) (h0 q hq)
        · rw [hq]
          exact hfresh (var, value) (List.mem_cons_self _ _) m hk

theorem git_config_head_inv (gcb : CStr → Option CStr → Bool) (Q : tar_filter → Prop)
    (config : List (CStr × Option CStr)) (hd : tar_filter) (rest : List tar_filter)
    (h0 : Q hd)
    (hstep : ∀ kv ∈ config, ∀ q, q.name = hd.name → config_key_name kv.1 = some hd.name →
      Q q → Q (attr_fn gcb kv.1 (config_key_type kv.1) kv.2 q)) :
    ∃ hd' rest', git_config (tar_filter_config gcb) config (hd :: rest) = hd' :: rest' ∧
      hd'.name = hd.name ∧ Q hd' := by
  induction config generalizing hd rest with
  | nil => exact ⟨hd, rest, rfl, rfl, h0⟩
  | cons kv more ih =>
    obtain ⟨var, value⟩ := kv
    show ∃ hd' rest', git_config (tar_filter_config gcb) more
      (tar_filter_config gcb var value (hd :: rest)).1 = hd' :: rest' ∧ _
    rw [tar_filter_config_fst]
    cases hk : config_key_name var with
    | none =>
      exact ih hd rest h0 (fun kv hkv => hstep kv (List.mem_cons_of_mem _ hkv))
    | some m =>
      simp only
      by_cases hm : hd.name = m
      · have e : upd m (attr_fn gcb var (config_key_type var) value) (hd :: rest) =
            attr_fn gcb var (config_key_type var) value hd :: rest := by
          simp [upd, hm]
        rw [e]
        have hn := attr_fn_name gcb var (config_key_type var) value hd
        obtain ⟨hd', rest', h1, h2, h3⟩ := ih (attr_fn gcb var (config_key_type var) value hd)
          rest (hstep (var, value) (List.mem_cons_self _ _) hd rfl (by rw [hk, hm]) h0)
          (fun kv hkv q hq hkq => hstep kv (List.mem_cons_of_mem _ hkv) q (by rw [hq, hn])
            (by rw [hkq, hn]))
        exact ⟨hd', rest', h1, by rw [h2, hn], h3⟩
      · have e : upd m (attr_fn gcb var (config_key_type var) value) (hd :: rest) =
            hd :: upd m (attr_fn gcb var (config_key_type var) value) rest := by
          simp [upd, hm]
        rw [e]
        exact ih hd _ h0 (fun kv hkv => hstep kv (List.mem_cons_of_mem _ hkv))

theorem load_builtin_filters_nil : load_builtin_filters [] = [builtin_tgz] := by
  decide

/-- After the built-in filters and any keys, the registry starts with the
definition named "tgz", which still has its two extensions, and no other
definition has that name. -/
theorem merged_head (gcb : CStr → Option CStr → Bool) (config : List (CStr × Option CStr)) :
    ∃ hd rest, merged gcb config = hd :: rest ∧ hd.name = "tgz".toList ∧
      "tgz".toList ∈ hd.extensions ∧ "tar.gz".toList ∈ hd.extensions ∧
      ∀ p ∈ rest, p.name ≠ "tgz".toList := by
  unfold merged
  rw [load_builtin_filters_nil]
  obtain ⟨hd, rest, h1, h2, h3, h4⟩ := git_config_head_inv gcb
    (fun q => "tgz".toList ∈ q.extensions ∧ "tar.gz".toList ∈ q.extensions) config
    builtin_tgz [] ⟨by decide, by decide⟩
    (fun kv _ q _ _ hq => ⟨attr_fn_extensions gcb _ _ _ q _ hq.1,
      attr_fn_extensions gcb _ _ _ q _ hq.2⟩)
  refine ⟨hd, rest, h1, h2, h3, h4, ?_⟩
  have hnd := git_config_nodup gcb config [builtin_tgz] (by decide)
  rw [h1] at hnd
  intro p hp hpn
  rw [List.map_cons, List.nodup_cons] at hnd
  apply hnd.1
  have h2' : hd.name = p.name := by rw [h2, hpn]; rfl
  rw [h2']
  exact List.mem_map_of_mem _ hp

theorem match_extension_dot (p e : CStr) (hp : p ≠ []) :
    match_extension (p ++ '.' :: e) e = true := by
  rw [match_extension_iff_aux]
  have hl : 0 < p.length := List.length_pos.2 hp
  have e1 : (p ++ '.' :: e).length - e.length - 1 = p.length := by
    simp
    omega
  have e2 : (p ++ '.' :: e).length - e.length = (p ++ ['.']).length := by
    simp
    omega
  refine ⟨by simp; omega, ?_, ?_⟩
  · rw [e1, List.getElem?_append_right (Nat.le_refl _)]
    simp
  · rw [e2]
    have : p ++ '.' :: e = (p ++ ['.']) ++ e := by simp
    rw [this]
    exact List.drop_left' rfl

theorem tar_filter_by_extension_nil_of_forall (reg : List tar_filter) (filename : CStr)
    (h : ∀ p ∈ reg, extensions_match filename p.extensions = false) :
    tar_filter_by_extension reg filename = none := by
  unfold tar_filter_by_extension
  rw [tar_filter_by_extension_loop_eq, first_from_eq_none]
  exact h

theorem tar_filter_by_extension_head (hd : tar_filter) (rest : List tar_filter)
    (filename e : CStr) (he : e ∈ hd.extensions) (hm : match_extension filename e = true) :
    tar_filter_by_extension (hd :: rest) filename = some 0 := by
  unfold tar_filter_by_extension tar_filter_by_extension_loop
  rw [if_pos ((extensions_match_iff _ _).2 ⟨e, he, hm⟩)]

theorem tar_filter_by_name_head (hd : tar_filter) (rest : List tar_filter) :
    tar_filter_by_name (hd :: rest) hd.name = some 0 := by
  rw [tar_filter_by_name_eq]
  unfold first_from
  rw [if_pos (by simp)]

theorem config_key_split (var n : CStr) (h : config_key_name var = some n) :
    var = "tarfilter.".toList ++ n ++ '.' :: config_key_type var := by
  obtain ⟨t, hv, ht⟩ := config_key_name_some var n h
  have := config_key_type_split n t ht
  rw [← hv] at this
  rw [this]
  exact hv

/-! ## The calls of the writer -/

theorem write_tar_to_filter_ret (w : Collaborators) (cmd : CStr) (r : Int)
    (h : (write_tar_to_filter w cmd).outcome = .ret r) :
    ∃ fd, w.start_command = some fd ∧
      (write_tar_to_filter w cmd).trace =
        [.start_command cmd (some fd), .close 1, .dup2 fd 1 true, .close fd,
         .write_tar_archive, .close 1, .finish_command] ∧
      r = w.write_tar_archive ∧ w.finish_command = 0 := by
  unfold write_tar_to_filter at h ⊢
  cases hs : w.start_command with
  | none => simp [hs] at h
  | some fd =>
    simp only [hs] at h ⊢
    by_cases hd : w.dup2 < 0
    · simp [hd] at h
    · simp only [hd, if_false] at h ⊢
      by_cases hf : w.finish_command = 0
      · simp only [hf, ne_eq, not_true_eq_false, if_false, Outcome.ret.injEq] at h ⊢
        exact ⟨fd, rfl, rfl, h.symm, trivial⟩
      · simp [hf] at h

/-! ## The properties of the specification -/

/-- C1: `match_extension(f, e)` is true exactly when `len(f) - len(e) >= 2`, the
character of `f` at index `len(f) - len(e) - 1` is a dot and the last `len(e)`
characters of `f` are `e`; it is false whenever `e` is longer than `f`, false
for ".tar.gz" against "tar.gz" and true for "a.tar.gz" against "tar.gz". -/
theorem match_extension_spec (f e : CStr) :
    (match_extension f e = true ↔
      ((strlen f : Int) - (strlen e : Int) ≥ 2 ∧
        f[strlen f - strlen e - 1]? = some '.' ∧
        f.drop (strlen f - strlen e) = e)) ∧
    (strlen f < strlen e → match_extension f e = false) ∧
    match_extension ".tar.gz".toList "tar.gz".toList = false ∧
    match_extension "a.tar.gz".toList "tar.gz".toList = true := by
  refine ⟨?_, ?_, by decide, by decide⟩
  · rw [match_extension_iff_aux]
    unfold strlen
    constructor
    · rintro ⟨h1, h2, h3⟩
      exact ⟨by omega, h2, h3⟩
    · rintro ⟨h1, h2, h3⟩
      exact ⟨by omega, h2, h3⟩
  · intro h
    unfold strlen at h
    cases hm : match_extension f e with
    | false => rfl
    | true =>
      have := (match_extension_iff_aux f e).1 hm
      omega

/-- Witness for C1 at the file name "a" and the extension "tar.gz". -/
theorem match_extension_spec_witness :
    strlen "a".toList < strlen "tar.gz".toList ∧
      match_extension "a".toList "tar.gz".toList = false :=
  ⟨by decide, (match_extension_spec "a".toList "tar.gz".toList).2.1 (by decide)⟩

/-- C2: `tar_filter_by_extension` returns the first definition, in registry
order, one of whose extensions matches the file name, and NULL exactly when no
definition has a matching extension; of two definitions with a matching
extension the later one is never returned. -/
theorem tar_filter_by_extension_spec (reg : List tar_filter) (filename : CStr) :
    (∀ i, tar_filter_by_extension reg filename = some i ↔
      ((∃ p, reg[i]? = some p ∧ ∃ e ∈ p.extensions, match_extension filename e = true) ∧
        ∀ j, j < i → ∀ q, reg[j]? = some q →
          ∀ e ∈ q.extensions, match_extension filename e = false)) ∧
    (tar_filter_by_extension reg filename = none ↔
      ∀ p ∈ reg, ∀ e ∈ p.extensions, match_extension filename e = false) ∧
    (∀ i j p q, i < j → reg[i]? = some p → reg[j]? = some q →
      (∃ e ∈ p.extensions, match_extension filename e = true) →
      (∃ e ∈ q.extensions, match_extension filename e = true) →
      ∃ k, k ≤ i ∧ tar_filter_by_extension reg filename = some k) := by
  have hsome : ∀ i, tar_filter_by_extension reg filename = some i ↔
      ((∃ p, reg[i]? = some p ∧ ∃ e ∈ p.extensions, match_extension filename e = true) ∧
        ∀ j, j < i → ∀ q, reg[j]? = some q →
          ∀ e ∈ q.extensions, match_extension filename e = false) := by
    intro i
    unfold tar_filter_by_extension
    rw [tar_filter_by_extension_loop_eq, first_from_eq_some]
    simp only [Nat.zero_le, true_and, Nat.sub_zero, extensions_match_iff]
    constructor
    · rintro ⟨h1, h2⟩
      refine ⟨h1, fun j hj q hq e he => ?_⟩
      have := h2 j hj q hq
      cases hm : match_extension filename e with
      | false => rfl
      | true =>
        have h3 : extensions_match filename q.extensions = true :=
          (extensions_match_iff _ _).2 ⟨e, he, hm⟩
        rw [h3] at this
        cases this
    · rintro ⟨h1, h2⟩
      refine ⟨h1, fun j hj q hq => ?_⟩
      cases hm : extensions_match filename q.extensions with
      | false => rfl
      | true =>
        obtain ⟨e, he, hme⟩ := (extensions_match_iff _ _).1 hm
        rw [h2 j hj q hq e he] at hme
        cases hme
  have hnone : tar_filter_by_extension reg filename = none ↔
      ∀ p ∈ reg, ∀ e ∈ p.extensions, match_extension filename e = false := by
    unfold tar_filter_by_extension
    rw [tar_filter_by_extension_loop_eq, first_from_eq_none]
    constructor
    · intro h p hp e he
      cases hm : match_extension filename e with
      | false => rfl
      | true =>
        have h3 : extensions_match filename p.extensions = true :=
          (extensions_match_iff _ _).2 ⟨e, he, hm⟩
        rw [h p hp] at h3
        cases h3
    · intro h p hp
      cases hm : extensions_match filename p.extensions with
      | false => rfl
      | true =>
        obtain ⟨e, he, hme⟩ := (extensions_match_iff _ _).1 hm
        rw [h p hp e he] at hme
        cases hme
  refine ⟨hsome, hnone, ?_⟩
  intro i j p q _ hp _ hpm _
  cases hr : tar_filter_by_extension reg filename with
  | none =>
    obtain ⟨e, he, hme⟩ := hpm
    rw [hnone.1 hr p (List.getElem?_mem hp) e he] at hme
    cases hme
  | some k =>
    refine ⟨k, ?_, rfl⟩
    by_contra hlt
    obtain ⟨e, he, hme⟩ := hpm
    rw [((hsome k).1 hr).2 i (by omega) p hp e he] at hme
    cases hme

/-- Witness for C2: two definitions that both claim "gz"; the file name
"a.tar.gz" resolves to the first although the match is the second extension
of its list. -/
theorem tar_filter_by_extension_spec_witness :
    ∃ k, k ≤ 0 ∧
      tar_filter_by_extension
        [{ name := "one".toList, command := some "gzip".toList,
           extensions := ["zip".toList, "gz".toList], use_compression := false },
         { name := "two".toList, command := some "pigz".toList,
           extensions := ["gz".toList], use_compression := false }]
        "a.tar.gz".toList = some k :=
  (tar_filter_by_extension_spec _ "a.tar.gz".toList).2.2 0 1 _ _ (by decide) rfl rfl
    ⟨"gz".toList, by decide, by decide⟩ ⟨"gz".toList, by decide, by decide⟩

/-- C3: `tar_filter_by_name(name)` returns the first definition whose name is
equal to `name`, character for character, and NULL exactly when no definition
has that name; a name that is a proper part of the query, extends it, or
differs in letter case is not returned. -/
theorem tar_filter_by_name_spec (reg : List tar_filter) (name : CStr) :
    (∀ i, tar_filter_by_name reg name = some i ↔
      ((∃ p, reg[i]? = some p ∧ p.name = name) ∧
        ∀ j, j < i → ∀ q, reg[j]? = some q → q.name ≠ name)) ∧
    (tar_filter_by_name reg name = none ↔ ∀ p ∈ reg, p.name ≠ name) ∧
    (∀ i p, tar_filter_by_name reg name = some i → reg[i]? = some p → p.name = name) ∧
    tar_filter_by_name (load_builtin_filters []) "tg".toList = none ∧
    tar_filter_by_name (load_builtin_filters []) "tgz2".toList = none ∧
    tar_filter_by_name (load_builtin_filters []) "TGZ".toList = none ∧
    tar_filter_by_name (load_builtin_filters []) "tgz".toList = some 0 := by
  refine ⟨tar_filter_by_name_eq_some reg name, tar_filter_by_name_eq_none reg name, ?_,
    by decide, by decide, by decide, by decide⟩
  intro i p h hp
  obtain ⟨⟨p', hp', hn⟩, _⟩ := (tar_filter_by_name_eq_some reg name i).1 h
  rw [hp] at hp'
  cases hp'
  exact hn

/-- Witness for C3 on the registry of the built-in filter. -/
theorem tar_filter_by_name_spec_witness :
    tar_filter_by_name (load_builtin_filters []) "tgz".toList = some 0 ∧
      (load_builtin_filters [])[0]? =
        some { name := "tgz".toList, command := some "gzip -n".toList,
               extensions := ["tgz".toList, "tar.gz".toList], use_compression := true } ∧
      "tgz".toList = "tgz".toList :=
  ⟨by decide, by decide,
    (tar_filter_by_name_spec (load_builtin_filters []) "tgz".toList).2.2.1 0
      { name := "tgz".toList, command := some "gzip -n".toList,
        extensions := ["tgz".toList, "tar.gz".toList], use_compression := true }
      (by decide) (by decide)⟩

/-- C4: after the first `tar_filter_load_config` the registry is the list
built by `load_builtin_filters` and the configuration keys, with every
definition whose command is NULL or empty removed and the others kept in
order and unchanged; every definition left has a non-empty command. -/
theorem tar_filter_load_config_registry (gcb : CStr → Option CStr → Bool)
    (config : List (CStr × Option CStr)) :
    (tar_filter_load_config gcb config State.init).tar_filters =
      (git_config (tar_filter_config gcb) config (load_builtin_filters [])).filter
        (fun p => decide (p.command ≠ none ∧ p.command ≠ some [])) ∧
    ∀ p ∈ (tar_filter_load_config gcb config State.init).tar_filters,
      ∃ c, p.command = some c ∧ c ≠ [] := by
  have hf : (fun p : tar_filter => decide (p.command ≠ none ∧ p.command ≠ some [])) =
      has_command := by
    funext p
    unfold has_command
    cases h : p.command with
    | none => simp
    | some c => cases c <;> simp
  rw [hf, tar_filter_load_config_init]
  refine ⟨rfl, fun p hp => ?_⟩
  exact (has_command_iff p).1 (List.mem_filter.1 hp).2

/-- Witness for C4: a configuration that gives "xz" a command and "broken"
only an extension; the definition "xz" is left by the load, with its command. -/
theorem tar_filter_load_config_registry_witness :
    ({ name := "xz".toList, command := some "xz -9".toList, extensions := [],
       use_compression := false } : tar_filter) ∈
      (tar_filter_load_config (fun _ _ => true)
        [("tarfilter.xz.command".toList, some "xz -9".toList),
         ("tarfilter.broken.extension".toList, some "foo".toList)] State.init).tar_filters ∧
    ∃ c, (some "xz -9".toList : Option CStr) = some c ∧ c ≠ [] :=
  ⟨by decide,
    (tar_filter_load_config_registry (fun _ _ => true)
      [("tarfilter.xz.command".toList, some "xz -9".toList),
       ("tarfilter.broken.extension".toList, some "foo".toList)]).2
      { name := "xz".toList, command := some "xz -9".toList, extensions := [],
        use_compression := false } (by decide)⟩

/-- C5: the names of the registry are pairwise distinct after the built-in
filters are installed, after every key of every configuration is processed,
and after pruning; `tar_filter_config` keeps them distinct from any registry
whose names are distinct. -/
theorem registry_names_nodup (gcb : CStr → Option CStr → Bool)
    (config : List (CStr × Option CStr)) :
    ((load_builtin_filters []).map tar_filter.name).Nodup ∧
    (∀ k, ((git_config (tar_filter_config gcb) (config.take k)
      (load_builtin_filters [])).map tar_filter.name).Nodup) ∧
    ((tar_filter_load_config gcb config State.init).tar_filters.map tar_filter.name).Nodup ∧
    (∀ reg var value, (reg.map tar_filter.name).Nodup →
      ((tar_filter_config gcb var value reg).1.map tar_filter.name).Nodup) := by
  have h0 : ((load_builtin_filters []).map tar_filter.name).Nodup := by decide
  refine ⟨h0, fun k => git_config_nodup gcb _ _ h0, ?_,
    fun reg var value h => tar_filter_config_nodup gcb var value reg h⟩
  rw [tar_filter_load_config_init]
  exact (git_config_nodup gcb config _ h0).sublist
    ((List.filter_sublist _).map tar_filter.name)

/-- Witness for C5: the key "tarfilter.tgz.extension" on the registry of the
built-in filter. -/
theorem registry_names_nodup_witness :
    ((load_builtin_filters []).map tar_filter.name).Nodup ∧
      ((tar_filter_config (fun _ _ => true) "tarfilter.tgz.extension".toList
        (some "x".toList) (load_builtin_filters [])).1.map tar_filter.name).Nodup :=
  ⟨by decide,
    (registry_names_nodup (fun _ _ => true) []).2.2.2 (load_builtin_filters [])
      "tarfilter.tgz.extension".toList (some "x".toList) (by decide)⟩

/-- C6: a second call of `tar_filter_load_config`, with the same or with
another configuration, leaves the state as the first call left it; loading
"tarfilter.tgz.extension = x" twice leaves the extension "x" once. -/
theorem tar_filter_load_config_idempotent (gcb : CStr → Option CStr → Bool)
    (config config2 : List (CStr × Option CStr)) (s : State) :
    tar_filter_load_config gcb config2 (tar_filter_load_config gcb config s) =
      tar_filter_load_config gcb config s ∧
    (tar_filter_load_config gcb config s).tar_filter_config_loaded = true ∧
    (tar_filter_load_config (fun _ _ => true)
      [("tarfilter.tgz.extension".toList, some "x".toList)]
      (tar_filter_load_config (fun _ _ => true)
        [("tarfilter.tgz.extension".toList, some "x".toList)] State.init)).tar_filters =
      [{ name := "tgz".toList, command := some "gzip -n".toList,
         extensions := ["tgz".toList, "tar.gz".toList, "x".toList],
         use_compression := true }] := by
  have hl : (tar_filter_load_config gcb config s).tar_filter_config_loaded = true := by
    unfold tar_filter_load_config
    by_cases h : s.tar_filter_config_loaded = true
    · simp [h]
    · simp [h]
  refine ⟨?_, hl, by decide⟩
  generalize tar_filter_load_config gcb config s = s1 at hl
  unfold tar_filter_load_config
  simp [hl]

/-- C7: when no key of the configuration addresses the filter name "tgz",
`tar_filter_by_name("tgz")` returns after the load a definition with command
"gzip -n", extensions "tgz" and "tar.gz" and compression enabled, and
`tar_filter_by_extension` returns the same definition for "archive.tgz" and
for "archive.tar.gz". -/
theorem builtin_tgz_after_load (gcb : CStr → Option CStr → Bool)
    (config : List (CStr × Option CStr))
    (h : ∀ kv ∈ config, config_key_name kv.1 ≠ some "tgz".toList) :
    ∃ i,
      tar_filter_by_name (tar_filter_load_config gcb config State.init).tar_filters
        "tgz".toList = some i ∧
      (tar_filter_load_config gcb config State.init).tar_filters[i]? =
        some { name := "tgz".toList, command := some "gzip -n".toList,
               extensions := ["tgz".toList, "tar.gz".toList], use_compression := true } ∧
      tar_filter_by_extension (tar_filter_load_config gcb config State.init).tar_filters
        "archive.tgz".toList = some i ∧
      tar_filter_by_extension (tar_filter_load_config gcb config State.init).tar_filters
        "archive.tar.gz".toList = some i := by
  have h0 : (load_builtin_filters [])[0]? = some builtin_tgz := by decide
  have h1 := git_config_head gcb config _ builtin_tgz h0 h
  rw [tar_filter_load_config_init]
  generalize git_config (tar_filter_config gcb) config (load_builtin_filters []) = reg at h1
  cases reg with
  | nil => simp at h1
  | cons a l =>
    have ha : a = builtin_tgz := by simpa using h1
    subst ha
    have hc : has_command builtin_tgz = true := by decide
    rw [List.filter_cons_of_pos hc]
    refine ⟨0, ?_, by rw [List.getElem?_cons_zero]; rfl, ?_, ?_⟩
    · rw [tar_filter_by_name_eq]
      unfold first_from
      rw [if_pos (by decide)]
    · unfold tar_filter_by_extension tar_filter_by_extension_loop
      rw [if_pos (by decide)]
    · unfold tar_filter_by_extension tar_filter_by_extension_loop
      rw [if_pos (by decide)]

/-- Witness for C7: a configuration that defines another filter, "xz", which
claims the extension "tgz" too. -/
theorem builtin_tgz_after_load_witness :
    (∀ kv ∈ [("tarfilter.xz.command".toList, some "xz".toList),
        ("tarfilter.xz.extension".toList, some "tgz".toList)],
      config_key_name kv.1 ≠ some "tgz".toList) ∧
    ∃ i,
      tar_filter_by_name (tar_filter_load_config (fun _ _ => true)
        [("tarfilter.xz.command".toList, some "xz".toList),
         ("tarfilter.xz.extension".toList, some "tgz".toList)] State.init).tar_filters
        "tgz".toList = some i ∧
      (tar_filter_load_config (fun _ _ => true)
        [("tarfilter.xz.command".toList, some "xz".toList),
         ("tarfilter.xz.extension".toList, some "tgz".toList)] State.init).tar_filters[i]? =
        some { name := "tgz".toList, command := some "gzip -n".toList,
               extensions := ["tgz".toList, "tar.gz".toList], use_compression := true } ∧
      tar_filter_by_extension (tar_filter_load_config (fun _ _ => true)
        [("tarfilter.xz.command".toList, some "xz".toList),
         ("tarfilter.xz.extension".toList, some "tgz".toList)] State.init).tar_filters
        "archive.tgz".toList = some i ∧
      tar_filter_by_extension (tar_filter_load_config (fun _ _ => true)
        [("tarfilter.xz.command".toList, some "xz".toList),
         ("tarfilter.xz.extension".toList, some "tgz".toList)] State.init).tar_filters
        "archive.tar.gz".toList = some i :=
  ⟨by decide, builtin_tgz_after_load (fun _ _ => true) _ (by decide)⟩

/-- C8, as the file reads the key: "tarfilter..command" is not ignored; on
the empty registry it creates a definition with the empty name. -/
theorem empty_name_key_creates_definition :
    tar_filter_config (fun _ _ => true) "tarfilter..command".toList (some "x".toList) [] =
      ([{ name := [], command := some "x".toList, extensions := [],
          use_compression := false }], 0) := by
  decide

/-- C8, amended: a key of the namespace with no dot after the prefix
"tarfilter." (no filter name at all, such as "tarfilter.command") is ignored:
the result is 0 and the registry is unchanged.  A key with the empty text
between two dots, such as "tarfilter..command", addresses the definition with
the empty name, which is appended when the registry has none. -/
theorem tar_filter_config_no_name (gcb : CStr → Option CStr → Bool) (t : CStr)
    (value : Option CStr) (reg : List tar_filter) (ht : '.' ∉ t) :
    tar_filter_config gcb ("tarfilter.".toList ++ t) value reg = (reg, 0) ∧
    config_key_name ("tarfilter..".toList ++ t) = some [] ∧
    (tar_filter_by_name reg [] = none →
      ∃ p, p.name = [] ∧
        (tar_filter_config gcb ("tarfilter..".toList ++ t) value reg).1 = reg ++ [p]) := by
  have hk : config_key_name ("tarfilter..".toList ++ t) = some [] :=
    config_key_name_split [] t ht
  refine ⟨tar_filter_config_none gcb _ value reg (config_key_name_no_name t ht), hk, ?_⟩
  intro hb
  rcases tar_filter_config_shape gcb ("tarfilter..".toList ++ t) value reg with
    ⟨h0, _⟩ | ⟨n, hn, f, hf, hs⟩
  · rw [hk] at h0
    cases h0
  · rw [hk] at hn
    cases hn
    rw [hb] at hs
    exact ⟨f (fresh []), by rw [hf]; rfl, hs⟩

/-- Witness for C8, amended: the keys "tarfilter.command" and
"tarfilter..command" on the registry of the built-in filter. -/
theorem tar_filter_config_no_name_witness :
    '.' ∉ "command".toList ∧
    tar_filter_by_name (load_builtin_filters []) [] = none ∧
    tar_filter_config (fun _ _ => true) ("tarfilter.".toList ++ "command".toList)
      (some "x".toList) (load_builtin_filters []) = (load_builtin_filters [], 0) ∧
    ∃ p, p.name = [] ∧
      (tar_filter_config (fun _ _ => true) ("tarfilter..".toList ++ "command".toList)
        (some "x".toList) (load_builtin_filters [])).1 = load_builtin_filters [] ++ [p] :=
  ⟨by decide, by decide,
    (tar_filter_config_no_name (fun _ _ => true) "command".toList (some "x".toList)
      (load_builtin_filters []) (by decide)).1,
    (tar_filter_config_no_name (fun _ _ => true) "command".toList (some "x".toList)
      (load_builtin_filters []) (by decide)).2.2 (by decide)⟩

/-- C9: the key "tarfilter.<n>.extension" with value `v` replaces the
extension list `xs` of the definition named `n` by `xs ++ [v]` and leaves its
name, command and compression flag, and every other definition, as they are;
when no definition is named `n` a new one with the single extension `v` is
appended.  For the built-in filter the value "x" gives "tgz", "tar.gz", "x",
and the value "tgz" is added a second time. -/
theorem extension_key_appends (gcb : CStr → Option CStr → Bool) (reg : List tar_filter)
    (n v : CStr) :
    (∀ i p, tar_filter_by_name reg n = some i → reg[i]? = some p →
      tar_filter_config gcb ("tarfilter.".toList ++ n ++ ".extension".toList) (some v) reg =
        (reg.set i { name := p.name, command := p.command,
                     extensions := p.extensions ++ [v],
                     use_compression := p.use_compression }, 0)) ∧
    (tar_filter_by_name reg n = none →
      tar_filter_config gcb ("tarfilter.".toList ++ n ++ ".extension".toList) (some v) reg =
        (reg ++ [{ name := n, command := none, extensions := [v],
                   use_compression := false }], 0)) ∧
    tar_filter_config gcb "tarfilter.tgz.extension".toList (some "x".toList)
        (load_builtin_filters []) =
      ([{ name := "tgz".toList, command := some "gzip -n".toList,
          extensions := ["tgz".toList, "tar.gz".toList, "x".toList],
          use_compression := true }], 0) ∧
    tar_filter_config gcb "tarfilter.tgz.extension".toList (some "tgz".toList)
        (load_builtin_filters []) =
      ([{ name := "tgz".toList, command := some "gzip -n".toList,
          extensions := ["tgz".toList, "tar.gz".toList, "tgz".toList],
          use_compression := true }], 0) := by
  have key : ∀ (reg : List tar_filter) (n v : CStr),
      tar_filter_config gcb ("tarfilter.".toList ++ n ++ ".extension".toList) (some v) reg =
        config_attr gcb ("tarfilter.".toList ++ n ++ ".extension".toList) n
          "extension".toList (some v) reg :=
    fun reg n v => tar_filter_config_key gcb n "extension".toList (some v) reg (by decide)
  have hne : ¬ ("extension".toList = "command".toList) := by decide
  have hsome : ∀ (reg : List tar_filter) (n v : CStr) (i : Nat) (p : tar_filter),
      tar_filter_by_name reg n = some i → reg[i]? = some p →
      tar_filter_config gcb ("tarfilter.".toList ++ n ++ ".extension".toList) (some v) reg =
        (reg.set i { name := p.name, command := p.command,
                     extensions := p.extensions ++ [v],
                     use_compression := p.use_compression }, 0) := by
    intro reg n v i p hi hp
    rw [key]
    unfold config_attr
    rw [if_neg hne, if_pos rfl, hi]
    simp only
    rw [assign_eq_set _ reg i p hp]
  refine ⟨hsome reg n v, ?_, ?_, ?_⟩
  · intro hb
    rw [key]
    unfold config_attr
    rw [if_neg hne, if_pos rfl, hb]
    simp only
    rw [assign_append_length]
    rfl
  · exact hsome (load_builtin_filters []) "tgz".toList "x".toList 0 _ (by decide) rfl
  · exact hsome (load_builtin_filters []) "tgz".toList "tgz".toList 0 _ (by decide) rfl

/-- Witness for C9: the key "tarfilter.tgz.extension" with value "x" on the
registry of the built-in filter. -/
theorem extension_key_appends_witness :
    tar_filter_by_name (load_builtin_filters []) "tgz".toList = some 0 ∧
    tar_filter_config (fun _ _ => false)
        ("tarfilter.".toList ++ "tgz".toList ++ ".extension".toList) (some "x".toList)
        (load_builtin_filters []) =
      ((load_builtin_filters []).set 0
        { name := "tgz".toList, command := some "gzip -n".toList,
          extensions := ["tgz".toList, "tar.gz".toList] ++ ["x".toList],
          use_compression := true }, 0) :=
  ⟨by decide,
    (extension_key_appends (fun _ _ => false) (load_builtin_filters []) "tgz".toList
      "x".toList).1 0
      { name := "tgz".toList, command := some "gzip -n".toList,
        extensions := ["tgz".toList, "tar.gz".toList], use_compression := true }
      (by decide) (by decide)⟩

/-- C10: the command line built by `write_tar_filter_archive` is the command
of the definition followed by " -" and the decimal level when
`use_compression` is set and the level is not negative, and the command
unchanged otherwise; "gzip -n" gives "gzip -n -6" at level 6, a command ends
in " -9" at level 9, and "gzip -n" stays at level -1. -/
theorem write_tar_filter_archive_cmd_spec (tf : tar_filter) (command : CStr) (level : Int)
    (h : tf.command = some command) :
    (tf.use_compression = true → 0 ≤ level →
      write_tar_filter_archive_cmd tf level =
        some (command ++ " -".toList ++ Nat.toDigits 10 level.toNat)) ∧
    (tf.use_compression = false ∨ level < 0 →
      write_tar_filter_archive_cmd tf level = some command) ∧
    (tf.use_compression = true →
      write_tar_filter_archive_cmd tf 9 = some (command ++ " -9".toList)) ∧
    write_tar_filter_archive_cmd builtin_tgz 6 = some "gzip -n -6".toList ∧
    write_tar_filter_archive_cmd builtin_tgz 9 = some "gzip -n -9".toList ∧
    write_tar_filter_archive_cmd builtin_tgz (-1) = some "gzip -n".toList := by
  refine ⟨?_, ?_, ?_, by decide, by decide, by decide⟩
  · intro hc hl
    have hl' : ¬ level < 0 := by omega
    unfold write_tar_filter_archive_cmd fmt_d
    simp [h, hc, hl, hl']
  · intro hor
    unfold write_tar_filter_archive_cmd
    rcases hor with hc | hl
    · simp [h, hc]
    · have hl' : ¬ level ≥ 0 := by omega
      simp [h, hl']
  · intro hc
    unfold write_tar_filter_archive_cmd
    simp only [h, hc, List.nil_append]
    rw [if_pos ⟨trivial, by decide⟩]
    rfl

/-- Witness for C10: the built-in filter at level 6. -/
theorem write_tar_filter_archive_cmd_spec_witness :
    builtin_tgz.command = some "gzip -n".toList ∧
      write_tar_filter_archive_cmd builtin_tgz 6 =
        some ("gzip -n".toList ++ " -".toList ++ Nat.toDigits 10 (6 : Int).toNat) :=
  ⟨rfl, (write_tar_filter_archive_cmd_spec builtin_tgz "gzip -n".toList 6 rfl).1 rfl
    (by decide)⟩

/-- C11: `write_tar_filter_archive` with no filter dies with the diagnostic of
the internal error before any call is made; when the filter cannot be started
it dies with a diagnostic that contains the command line; when the filter was
started and the redirect succeeded, a non-zero exit status makes it die with a
diagnostic that contains the command line, whatever the tar writer returned,
and a zero exit status makes it return the result of the tar writer. -/
theorem write_tar_filter_archive_outcome (w : Collaborators) (args : archiver_args) :
    (args.tar_filter = none →
      write_tar_filter_archive w args =
        some { outcome := .die "BUG: tar-filter archiver called with no filter defined".toList,
               trace := [] }) ∧
    (∀ tf cmd, args.tar_filter = some tf →
      write_tar_filter_archive_cmd tf args.compression_level = some cmd →
      (w.start_command = none →
        ∃ msg, cmd <:+: msg ∧
          write_tar_filter_archive w args =
            some { outcome := .die msg, trace := [.start_command cmd none] }) ∧
      (∀ fd, w.start_command = some fd → 0 ≤ w.dup2 → w.finish_command ≠ 0 →
        ∃ msg run, cmd <:+: msg ∧ write_tar_filter_archive w args = some run ∧
          run.outcome = .die msg) ∧
      (∀ fd, w.start_command = some fd → 0 ≤ w.dup2 → w.finish_command = 0 →
        ∃ run, write_tar_filter_archive w args = some run ∧
          run.outcome = .ret w.write_tar_archive)) := by
  refine ⟨fun h => by simp [write_tar_filter_archive, h], ?_⟩
  intro tf cmd htf hcmd
  refine ⟨?_, ?_, ?_⟩
  · intro hs
    refine ⟨"unable to start '".toList ++ cmd ++ "' filter".toList, ?_, ?_⟩
    · exact ⟨"unable to start '".toList, "' filter".toList, rfl⟩
    · simp only [write_tar_filter_archive, htf, hcmd, write_tar_to_filter, hs]
  · intro fd hs hd hf
    have hd' : ¬ w.dup2 < 0 := by omega
    refine ⟨"'".toList ++ cmd ++ "' filter reported error".toList, write_tar_to_filter w cmd,
      ?_, ?_, ?_⟩
    · exact ⟨"'".toList, "' filter reported error".toList, rfl⟩
    · simp only [write_tar_filter_archive, htf, hcmd]
    · simp only [write_tar_to_filter, hs, hd', if_false, hf, ne_eq, not_false_eq_true, if_true]
  · intro fd hs hd hf
    have hd' : ¬ w.dup2 < 0 := by omega
    refine ⟨write_tar_to_filter w cmd, ?_, ?_⟩
    · simp only [write_tar_filter_archive, htf, hcmd]
    · simp only [write_tar_to_filter, hs, hd', if_false, hf, ne_eq, not_true_eq_false]

/-- Witness for C11: the built-in filter at level 6, started on descriptor 3,
whose exit status is 1 while the tar writer returned 0. -/
theorem write_tar_filter_archive_outcome_witness :
    ∃ msg run, "gzip -n -6".toList <:+: msg ∧
      write_tar_filter_archive
        { start_command := some 3, dup2 := 1, write_tar_archive := 0, finish_command := 1 }
        { tar_filter := some builtin_tgz, compression_level := 6 } = some run ∧
      run.outcome = .die msg :=
  ((write_tar_filter_archive_outcome
      { start_command := some 3, dup2 := 1, write_tar_archive := 0, finish_command := 1 }
      { tar_filter := some builtin_tgz, compression_level := 6 }).2
    builtin_tgz "gzip -n -6".toList rfl (by decide)).2.1 3 rfl (by decide) (by decide)

/-- C12, as the file does it: after a call that returns 0 descriptor 1 is
closed, while it referred to a file before the call. -/
theorem stdout_not_restored :
    (write_tar_to_filter
        { start_command := some 3, dup2 := 1, write_tar_archive := 0, finish_command := 0 }
        "gzip -n".toList).outcome = .ret 0 ∧
    std_fds 1 = some (File.file 1) ∧
    exec std_fds (write_tar_to_filter
        { start_command := some 3, dup2 := 1, write_tar_archive := 0, finish_command := 0 }
        "gzip -n".toList).trace 1 = none := by
  decide

/-- C12, amended: for every call of `write_tar_to_filter` that returns,
descriptor 1 is closed after the call (the file it referred to before the call
is closed by the redirect and is not opened again), every descriptor other
than 1 and `filter.in` refers to what it referred to before, the wait for the
filter is the last call, and no descriptor refers to the write end of the pipe
when the wait is made. -/
theorem stdout_closed_after_return (w : Collaborators) (cmd : CStr) (t : FdTable) (r : Int)
    (h : (write_tar_to_filter w cmd).outcome = .ret r)
    (ht : ∀ fd, t fd ≠ some File.pipe_write) :
    exec t (write_tar_to_filter w cmd).trace 1 = none ∧
    (∀ fd, fd ≠ 1 → w.start_command ≠ some fd →
      exec t (write_tar_to_filter w cmd).trace fd = t fd) ∧
    (write_tar_to_filter w cmd).trace.getLast? = some .finish_command ∧
    (∀ fd, exec t ((write_tar_to_filter w cmd).trace.takeWhile
      (fun e => decide (e ≠ .finish_command))) fd ≠ some File.pipe_write) := by
  obtain ⟨fd0, hs, htr, _, _⟩ := write_tar_to_filter_ret w cmd r h
  rw [htr]
  refine ⟨?_, ?_, ?_, ?_⟩
  · simp [exec, Event.apply]
  · intro fd h1 h2
    have h3 : fd ≠ fd0 := fun e => h2 (by rw [hs, e])
    simp [exec, Event.apply, h1, h3]
  · simp
  · intro fd
    simp only [List.takeWhile, ne_eq, reduceCtorEq, not_false_eq_true, decide_True,
      not_true_eq_false, decide_False, exec, Event.apply]
    by_cases h1 : fd = 1
    · simp [h1]
    · by_cases h3 : fd = fd0
      · simp [h1, h3]
      · simp [h1, h3, ht fd]

/-- Witness for C12, amended: a call that returns 0 on the standard
descriptors, the filter started on descriptor 3. -/
theorem stdout_closed_after_return_witness :
    exec std_fds (write_tar_to_filter
        { start_command := some 3, dup2 := 1, write_tar_archive := 0, finish_command := 0 }
        "gzip -n".toList).trace 1 = none ∧
    exec std_fds (write_tar_to_filter
        { start_command := some 3, dup2 := 1, write_tar_archive := 0, finish_command := 0 }
        "gzip -n".toList).trace 2 = std_fds 2 :=
  ⟨(stdout_closed_after_return
      { start_command := some 3, dup2 := 1, write_tar_archive := 0, finish_command := 0 }
      "gzip -n".toList std_fds 0 (by decide) (by intro fd; unfold std_fds; split <;> simp)).1,
    (stdout_closed_after_return
      { start_command := some 3, dup2 := 1, write_tar_archive := 0, finish_command := 0 }
      "gzip -n".toList std_fds 0 (by decide)
      (by intro fd; unfold std_fds; split <;> simp)).2.1 2 (by decide) (by decide)⟩

/-- C13, as the file does it: the valueless key "tarfilter.a.command" reports
the error and appends an empty definition "a" to the registry; loaded before
the keys of "b" and the command of "a" it puts the definition "a" in front of
"b", while without the key "a" comes after "b". -/
theorem valueless_key_changes_order :
    tar_filter_config (fun _ _ => true) "tarfilter.a.command".toList none
        (load_builtin_filters []) =
      ([builtin_tgz,
        { name := "a".toList, command := none, extensions := [], use_compression := false }],
       -1) ∧
    (tar_filter_load_config (fun _ _ => true)
      [("tarfilter.a.command".toList, none),
       ("tarfilter.b.command".toList, some "x".toList),
       ("tarfilter.a.command".toList, some "y".toList)] State.init).tar_filters =
      [builtin_tgz,
       { name := "a".toList, command := some "y".toList, extensions := [],
         use_compression := false },
       { name := "b".toList, command := some "x".toList, extensions := [],
         use_compression := false }] ∧
    (tar_filter_load_config (fun _ _ => true)
      [("tarfilter.b.command".toList, some "x".toList),
       ("tarfilter.a.command".toList, some "y".toList)] State.init).tar_filters =
      [builtin_tgz,
       { name := "b".toList, command := some "x".toList, extensions := [],
         use_compression := false },
       { name := "a".toList, command := some "y".toList, extensions := [],
         use_compression := false }] := by
  decide

/-- C13, amended: a `command` or `extension` key given without a value makes
`tar_filter_config` report the configuration error and changes no definition;
like every key it appends a new, empty definition when the registry has none
of its name.  Loading a configuration with such a key gives a permutation of
the registry loaded without the key: the definitions of the other names are
the same and in the same order, the definition of the key's name is the same,
and the two registries are equal when that name is defined before the key. -/
theorem valueless_key_effect (gcb : CStr → Option CStr → Bool) (var n : CStr)
    (pre post : List (CStr × Option CStr)) (hk : config_key_name var = some n)
    (ht : config_key_type var = "command".toList ∨ config_key_type var = "extension".toList) :
    (∀ reg, (tar_filter_config gcb var none reg).2 = -1 ∧
      (tar_filter_by_name reg n ≠ none → (tar_filter_config gcb var none reg).1 = reg) ∧
      (tar_filter_by_name reg n = none →
        (tar_filter_config gcb var none reg).1 = reg ++ [fresh n])) ∧
    ((tar_filter_load_config gcb (pre ++ (var, none) :: post) State.init).tar_filters.Perm
      (tar_filter_load_config gcb (pre ++ post) State.init).tar_filters) ∧
    ((tar_filter_load_config gcb (pre ++ (var, none) :: post) State.init).tar_filters.filter
        (fun p => decide (p.name ≠ n)) =
      (tar_filter_load_config gcb (pre ++ post) State.init).tar_filters.filter
        (fun p => decide (p.name ≠ n))) ∧
    ((tar_filter_load_config gcb (pre ++ (var, none) :: post) State.init).tar_filters.filter
        (fun p => decide (p.name = n)) =
      (tar_filter_load_config gcb (pre ++ post) State.init).tar_filters.filter
        (fun p => decide (p.name = n))) ∧
    (tar_filter_by_name (merged gcb pre) n ≠ none →
      (tar_filter_load_config gcb (pre ++ (var, none) :: post) State.init).tar_filters =
        (tar_filter_load_config gcb (pre ++ post) State.init).tar_filters) := by
  have hstep : ∀ reg, (tar_filter_config gcb var none reg).1 = upd n (fun p => p) reg := by
    intro reg
    rw [tar_filter_config_fst, hk]
    simp only
    congr 1
    funext p
    exact attr_fn_none gcb var _ p ht
  obtain ⟨h1, h2⟩ := load_without_valueless_key gcb var n pre post hk ht
  have hne : (fun p : tar_filter => decide (p.name ≠ n)) = fun p => !decide (p.name = n) := by
    funext p
    simp
  refine ⟨?_, ?_, ?_, h2, ?_⟩
  · intro reg
    refine ⟨?_, ?_, ?_⟩
    · rw [tar_filter_config_eq_attr gcb var n none reg hk]
      exact config_attr_none_snd gcb var n _ reg ht
    · intro hb
      rw [hstep, upd_eq]
      cases hb' : tar_filter_by_name reg n with
      | none => exact absurd hb' hb
      | some i => exact assign_id reg i
    · intro hb
      rw [hstep, upd_eq, hb]
  · have p1 := List.filter_append_perm (fun p : tar_filter => decide (p.name = n))
      (tar_filter_load_config gcb (pre ++ (var, none) :: post) State.init).tar_filters
    have p2 := List.filter_append_perm (fun p : tar_filter => decide (p.name = n))
      (tar_filter_load_config gcb (pre ++ post) State.init).tar_filters
    beta_reduce at p1 p2
    rw [h1, h2] at p1
    exact p1.symm.trans p2
  · rw [hne]
    exact h1
  · intro hb
    rw [tar_filter_load_config_init, tar_filter_load_config_init, git_config_append,
      git_config_append]
    show (git_config (tar_filter_config gcb) post
      (tar_filter_config gcb var none (merged gcb pre)).1).filter has_command = _
    rw [hstep, upd_eq]
    cases hb' : tar_filter_by_name (merged gcb pre) n with
    | none => exact absurd hb' hb
    | some i =>
      simp only
      rw [assign_id]
      rfl

/-- Witness for C13, amended: the valueless key "tarfilter.a.command" before
the keys of "b" and the command of "a". -/
theorem valueless_key_effect_witness :
    config_key_name "tarfilter.a.command".toList = some "a".toList ∧
    (tar_filter_load_config (fun _ _ => true)
        ([] ++ ("tarfilter.a.command".toList, none) ::
          [("tarfilter.b.command".toList, some "x".toList),
           ("tarfilter.a.command".toList, some "y".toList)]) State.init).tar_filters.Perm
      (tar_filter_load_config (fun _ _ => true)
        ([] ++ [("tarfilter.b.command".toList, some "x".toList),
           ("tarfilter.a.command".toList, some "y".toList)]) State.init).tar_filters :=
  ⟨by decide,
    (valueless_key_effect (fun _ _ => true) "tarfilter.a.command".toList "a".toList []
      [("tarfilter.b.command".toList, some "x".toList),
       ("tarfilter.a.command".toList, some "y".toList)] (by decide)
      (Or.inl (by decide))).2.1⟩

/-- C14, as the file does it: at the file name "dir/.tar.gz" `match_extension`
accepts the extension "tar.gz" although the last path component is ".tar.gz",
and after the load the name resolves to the built-in filter; ".tar.gz" alone
is rejected. -/
theorem match_extension_directory_dotfile :
    match_extension "dir/.tar.gz".toList "tar.gz".toList = true ∧
    match_extension ".tar.gz".toList "tar.gz".toList = false ∧
    tar_filter_by_extension
      (tar_filter_load_config (fun _ _ => true) [] State.init).tar_filters
      "dir/.tar.gz".toList = some 0 := by
  decide

/-- C14, amended: when `match_extension` accepts, the file name is a
non-empty text, then a dot, then the extension; the text before the dot is
counted over the whole file name, directory components included.  A file name
that is only a dot followed by the extension is never accepted. -/
theorem match_extension_prefix_nonempty (f e : CStr) :
    (match_extension f e = true → ∃ p : CStr, p ≠ [] ∧ f = p ++ '.' :: e) ∧
    match_extension ('.' :: e) e = false := by
  constructor
  · intro h
    obtain ⟨h1, h2, h3⟩ := (match_extension_iff_aux f e).1 h
    obtain ⟨hlt, hc⟩ := List.getElem?_eq_some_iff.1 h2
    refine ⟨f.take (f.length - e.length - 1), ?_, ?_⟩
    · intro hnil
      have hl := congrArg List.length hnil
      rw [List.length_take, List.length_nil] at hl
      omega
    · have hd : f.drop (f.length - e.length - 1) = '.' :: e := by
        rw [List.drop_eq_getElem_cons hlt, hc]
        have e1 : f.length - e.length - 1 + 1 = f.length - e.length := by omega
        rw [e1, h3]
      conv_lhs => rw [← List.take_append_drop (f.length - e.length - 1) f]
      rw [hd]
  · cases hm : match_extension ('.' :: e) e with
    | false => rfl
    | true =>
      have := ((match_extension_iff_aux ('.' :: e) e).1 hm).1
      rw [List.length_cons] at this
      omega

/-- Witness for C14, amended: the file name "a.tar.gz" and the extension
"tar.gz". -/
theorem match_extension_prefix_nonempty_witness :
    match_extension "a.tar.gz".toList "tar.gz".toList = true ∧
      ∃ p : CStr, p ≠ [] ∧ "a.tar.gz".toList = p ++ '.' :: "tar.gz".toList :=
  ⟨by decide,
    (match_extension_prefix_nonempty "a.tar.gz".toList "tar.gz".toList).1 (by decide)⟩

/-- C15: after the load of the single key "tarfilter.custom.command" with
value "xz -T0", `tar_filter_by_name("custom")` returns a definition with that
command, no extensions and compression disabled, and no file name resolves to
it; a definition with no extensions is never the result of
`tar_filter_by_extension`. -/
theorem custom_filter_without_extension (gcb : CStr → Option CStr → Bool) :
    (∃ i,
      tar_filter_by_name
        (tar_filter_load_config gcb [("tarfilter.custom.command".toList, some "xz -T0".toList)]
          State.init).tar_filters "custom".toList = some i ∧
      (tar_filter_load_config gcb [("tarfilter.custom.command".toList, some "xz -T0".toList)]
          State.init).tar_filters[i]? =
        some { name := "custom".toList, command := some "xz -T0".toList, extensions := [],
               use_compression := false } ∧
      ∀ filename,
        tar_filter_by_extension
          (tar_filter_load_config gcb
            [("tarfilter.custom.command".toList, some "xz -T0".toList)]
            State.init).tar_filters filename ≠ some i) ∧
    (∀ (reg : List tar_filter) (filename : CStr) (i : Nat) (p : tar_filter),
      tar_filter_by_extension reg filename = some i → reg[i]? = some p →
        p.extensions ≠ []) := by
  have hgen : ∀ (reg : List tar_filter) (filename : CStr) (i : Nat) (p : tar_filter),
      tar_filter_by_extension reg filename = some i → reg[i]? = some p →
        p.extensions ≠ [] := by
    intro reg filename i p h hp
    unfold tar_filter_by_extension at h
    rw [tar_filter_by_extension_loop_eq, first_from_eq_some] at h
    obtain ⟨_, ⟨q, hq, hm⟩, _⟩ := h
    simp only [Nat.sub_zero] at hq
    rw [hp] at hq
    cases hq
    intro he
    rw [he] at hm
    simp [extensions_match] at hm
  have hreg : (tar_filter_load_config gcb
      [("tarfilter.custom.command".toList, some "xz -T0".toList)] State.init).tar_filters =
      [builtin_tgz,
       { name := "custom".toList, command := some "xz -T0".toList, extensions := [],
         use_compression := false }] := by
    rw [tar_filter_load_config_init]
    show (tar_filter_config gcb "tarfilter.custom.command".toList (some "xz -T0".toList)
      (load_builtin_filters [])).1.filter has_command = _
    rw [tar_filter_config_fst]
    have hk : config_key_name "tarfilter.custom.command".toList = some "custom".toList := by
      decide
    have ht : config_key_type "tarfilter.custom.command".toList = "command".toList := by
      decide
    rw [hk, ht]
    rfl
  refine ⟨⟨1, ?_, ?_, ?_⟩, hgen⟩
  · rw [hreg]; decide
  · rw [hreg]; rfl
  · intro filename h
    exact hgen _ filename 1 _ h (by rw [hreg]; rfl) rfl

/-- Witness for C15: the built-in filter is the result for "a.tgz", and it
has extensions. -/
theorem custom_filter_without_extension_witness :
    tar_filter_by_extension [builtin_tgz] "a.tgz".toList = some 0 ∧
      builtin_tgz.extensions ≠ [] :=
  ⟨by decide,
    (custom_filter_without_extension (fun _ _ => true)).2 [builtin_tgz] "a.tgz".toList 0
      builtin_tgz (by decide) rfl⟩

/-- C16: when no key of the configuration gives the filter name "broken" a
command, `tar_filter_by_name("broken")` returns NULL after the load and no
file name resolves to a definition of that name; with the single key
"tarfilter.broken.extension = foo" the name "x.foo" resolves to nothing. -/
theorem broken_filter_pruned (gcb : CStr → Option CStr → Bool)
    (config : List (CStr × Option CStr))
    (h : ∀ kv ∈ config, config_key_name kv.1 = some "broken".toList →
      config_key_type kv.1 ≠ "command".toList) :
    tar_filter_by_name (tar_filter_load_config gcb config State.init).tar_filters
      "broken".toList = none ∧
    (∀ (filename : CStr) (i : Nat) (p : tar_filter),
      tar_filter_by_extension (tar_filter_load_config gcb config State.init).tar_filters
        filename = some i →
      (tar_filter_load_config gcb config State.init).tar_filters[i]? = some p →
      p.name ≠ "broken".toList) ∧
    tar_filter_by_extension
      (tar_filter_load_config gcb [("tarfilter.broken.extension".toList, some "foo".toList)]
        State.init).tar_filters "x.foo".toList = none := by
  have hinv : ∀ p ∈ git_config (tar_filter_config gcb) config (load_builtin_filters []),
      p.name = "broken".toList → p.command = none := by
    apply git_config_forall gcb (fun p => p.name = "broken".toList → p.command = none)
    · intro p hp hn
      rw [load_builtin_filters_nil] at hp
      simp only [List.mem_singleton] at hp
      rw [hp] at hn
      exact absurd hn (by decide)
    · intro kv hkv m hm hn
      rw [attr_fn_name] at hn
      have hmb : m = "broken".toList := hn
      rw [attr_fn_command gcb _ _ _ _ (h kv hkv (by rw [hm, hmb]))]
      rfl
    · intro kv hkv q hq hQ hn
      rw [attr_fn_name] at hn
      rw [attr_fn_command gcb _ _ _ _ (h kv hkv (by rw [hq, hn]))]
      exact hQ hn
  have hno : ∀ p ∈ (tar_filter_load_config gcb config State.init).tar_filters,
      p.name ≠ "broken".toList := by
    intro p hp hn
    rw [tar_filter_load_config_init] at hp
    obtain ⟨hp1, hp2⟩ := List.mem_filter.1 hp
    have hc := hinv p hp1 hn
    unfold has_command at hp2
    rw [hc] at hp2
    cases hp2
  refine ⟨(tar_filter_by_name_eq_none _ _).2 hno, ?_, ?_⟩
  · intro filename i p _ hp
    exact hno p (List.getElem?_mem hp)
  · have hreg : (tar_filter_load_config gcb
        [("tarfilter.broken.extension".toList, some "foo".toList)] State.init).tar_filters =
        [builtin_tgz] := by
      rw [tar_filter_load_config_init]
      show (tar_filter_config gcb "tarfilter.broken.extension".toList (some "foo".toList)
        (load_builtin_filters [])).1.filter has_command = _
      rw [tar_filter_config_fst]
      have hk : config_key_name "tarfilter.broken.extension".toList =
          some "broken".toList := by decide
      have ht : config_key_type "tarfilter.broken.extension".toList =
          "extension".toList := by decide
      rw [hk, ht]
      rfl
    rw [hreg]
    decide

/-- Witness for C16: the configuration with the key
"tarfilter.broken.extension = foo" and a key of another filter. -/
theorem broken_filter_pruned_witness :
    (∀ kv ∈ [("tarfilter.broken.extension".toList, some "foo".toList),
        ("tarfilter.xz.command".toList, some "xz".toList)],
      config_key_name kv.1 = some "broken".toList →
        config_key_type kv.1 ≠ "command".toList) ∧
    tar_filter_by_name (tar_filter_load_config (fun _ _ => true)
      [("tarfilter.broken.extension".toList, some "foo".toList),
       ("tarfilter.xz.command".toList, some "xz".toList)] State.init).tar_filters
      "broken".toList = none :=
  ⟨by decide,
    (broken_filter_pruned (fun _ _ => true)
      [("tarfilter.broken.extension".toList, some "foo".toList),
       ("tarfilter.xz.command".toList, some "xz".toList)] (by decide)).1⟩

/-- C17: a key "tarfilter.<n>.<attribute>" leaves every definition of another
name with its fields and at its position; when no definition is named `n`,
one definition is appended, the new definition named `n` with no command, no
extensions and compression disabled, to which the attribute is applied;
otherwise the length of the registry is unchanged and only the first
definition named `n` can change. -/
theorem tar_filter_config_frame (gcb : CStr → Option CStr → Bool) (reg : List tar_filter)
    (n t : CStr) (value : Option CStr) (ht : '.' ∉ t) :
    (∀ (j : Nat) (p : tar_filter), reg[j]? = some p → p.name ≠ n →
      (tar_filter_config gcb ("tarfilter.".toList ++ n ++ '.' :: t) value reg).1[j]? =
        some p) ∧
    (tar_filter_by_name reg n = none →
      (tar_filter_config gcb ("tarfilter.".toList ++ n ++ '.' :: t) value reg).1 =
        reg ++ [attr_fn gcb ("tarfilter.".toList ++ n ++ '.' :: t) t value
          { name := n, command := none, extensions := [], use_compression := false }]) ∧
    (∀ i, tar_filter_by_name reg n = some i →
      (tar_filter_config gcb ("tarfilter.".toList ++ n ++ '.' :: t) value reg).1.length =
        reg.length ∧
      ∀ j : Nat, j ≠ i →
        (tar_filter_config gcb ("tarfilter.".toList ++ n ++ '.' :: t) value reg).1[j]? =
          reg[j]?) := by
  have hfst : (tar_filter_config gcb ("tarfilter.".toList ++ n ++ '.' :: t) value reg).1 =
      upd n (attr_fn gcb ("tarfilter.".toList ++ n ++ '.' :: t) t value) reg := by
    rw [tar_filter_config_key gcb n t value reg ht, config_attr_fst]
  rw [hfst, upd_eq]
  refine ⟨?_, ?_, ?_⟩
  · intro j p hj hp
    cases hb : tar_filter_by_name reg n with
    | none =>
      simp only
      rw [List.getElem?_append_left (by
        by_contra hlt
        rw [List.getElem?_eq_none (by omega)] at hj
        cases hj)]
      exact hj
    | some i =>
      simp only
      have hji : j ≠ i := by
        rintro rfl
        obtain ⟨⟨q, hq, hqn⟩, _⟩ := (tar_filter_by_name_eq_some reg n j).1 hb
        rw [hj] at hq
        cases hq
        exact hp hqn
      rw [getElem?_assign_ne _ reg i j hji]
      exact hj
  · intro hb
    rw [hb]
    rfl
  · intro i hb
    rw [hb]
    exact ⟨length_assign _ reg i, fun j hji => getElem?_assign_ne _ reg i j hji⟩

/-- Witness for C17: the key "tarfilter.xz.command" on the registry of the
built-in filter leaves the built-in definition at position 0 and appends the
definition "xz". -/
theorem tar_filter_config_frame_witness :
    (tar_filter_config (fun _ _ => true)
      ("tarfilter.".toList ++ "xz".toList ++ '.' :: "command".toList) (some "xz".toList)
      (load_builtin_filters [])).1[0]? = some builtin_tgz ∧
    (tar_filter_config (fun _ _ => true)
      ("tarfilter.".toList ++ "xz".toList ++ '.' :: "command".toList) (some "xz".toList)
      (load_builtin_filters [])).1 =
      load_builtin_filters [] ++
        [attr_fn (fun _ _ => true)
          ("tarfilter.".toList ++ "xz".toList ++ '.' :: "command".toList) "command".toList
          (some "xz".toList)
          { name := "xz".toList, command := none, extensions := [],
            use_compression := false }] :=
  ⟨(tar_filter_config_frame (fun _ _ => true) (load_builtin_filters []) "xz".toList
      "command".toList (some "xz".toList) (by decide)).1 0 builtin_tgz (by decide) (by decide),
    (tar_filter_config_frame (fun _ _ => true) (load_builtin_filters []) "xz".toList
      "command".toList (some "xz".toList) (by decide)).2.1 (by decide)⟩

/-- C19: when the configuration leaves the definition "tgz" with a non-empty
command, that definition is the first entry of the registry after the load,
and `tar_filter_by_extension` returns it for every file name made of a
non-empty text followed by ".tgz" or ".tar.gz", whatever other filters the
configuration defines. -/
theorem builtin_tgz_first (gcb : CStr → Option CStr → Bool)
    (config : List (CStr × Option CStr))
    (h : ∃ p ∈ merged gcb config, p.name = "tgz".toList ∧ has_command p = true) :
    (∃ hd, (tar_filter_load_config gcb config State.init).tar_filters[0]? = some hd ∧
      hd.name = "tgz".toList) ∧
    tar_filter_by_name (tar_filter_load_config gcb config State.init).tar_filters
      "tgz".toList = some 0 ∧
    ∀ p : CStr, p ≠ [] →
      tar_filter_by_extension (tar_filter_load_config gcb config State.init).tar_filters
        (p ++ ".tgz".toList) = some 0 ∧
      tar_filter_by_extension (tar_filter_load_config gcb config State.init).tar_filters
        (p ++ ".tar.gz".toList) = some 0 := by
  obtain ⟨hd, rest, hm, hn, he1, he2, hrest⟩ := merged_head gcb config
  obtain ⟨p, hp, hpn, hpc⟩ := h
  have hphd : p = hd := by
    rw [hm] at hp
    rcases List.mem_cons.1 hp with e | e
    · exact e
    · exact absurd hpn (hrest p e)
  subst hphd
  have hreg : (tar_filter_load_config gcb config State.init).tar_filters =
      p :: rest.filter has_command := by
    rw [tar_filter_load_config_init]
    show (merged gcb config).filter has_command = _
    rw [hm, List.filter_cons_of_pos hpc]
  rw [hreg]
  refine ⟨⟨p, by rw [List.getElem?_cons_zero], hn⟩, ?_, ?_⟩
  · rw [← hn]
    exact tar_filter_by_name_head p _
  · intro q hq
    exact ⟨tar_filter_by_extension_head p _ _ "tgz".toList he1
        (match_extension_dot q "tgz".toList hq),
      tar_filter_by_extension_head p _ _ "tar.gz".toList he2
        (match_extension_dot q "tar.gz".toList hq)⟩

/-- Witness for C19: the filter "pigz" claims "tgz" and "gz"; "backup.tgz"
still resolves to the first entry. -/
theorem builtin_tgz_first_witness :
    (∃ p ∈ merged (fun _ _ => true)
        [("tarfilter.pigz.command".toList, some "pigz".toList),
         ("tarfilter.pigz.extension".toList, some "tgz".toList),
         ("tarfilter.pigz.extension".toList, some "gz".toList)],
      p.name = "tgz".toList ∧ has_command p = true) ∧
    tar_filter_by_extension (tar_filter_load_config (fun _ _ => true)
        [("tarfilter.pigz.command".toList, some "pigz".toList),
         ("tarfilter.pigz.extension".toList, some "tgz".toList),
         ("tarfilter.pigz.extension".toList, some "gz".toList)] State.init).tar_filters
      ("backup".toList ++ ".tgz".toList) = some 0 :=
  ⟨by decide,
    ((builtin_tgz_first (fun _ _ => true)
      [("tarfilter.pigz.command".toList, some "pigz".toList),
       ("tarfilter.pigz.extension".toList, some "tgz".toList),
       ("tarfilter.pigz.extension".toList, some "gz".toList)] (by decide)).2.2
      "backup".toList (by decide)).1⟩

/-- C20: when the last key "tarfilter.tgz.command" of the configuration has
the empty string as value, `tar_filter_by_name("tgz")` returns NULL after the
load; when moreover every key of the configuration is left aside or addresses
"tgz", `tar_filter_by_extension("archive.tar.gz")` returns NULL. -/
theorem builtin_tgz_removed (gcb : CStr → Option CStr → Bool)
    (pre post : List (CStr × Option CStr))
    (hpost : ∀ kv ∈ post, kv.1 ≠ "tarfilter.tgz.command".toList) :
    tar_filter_by_name
      (tar_filter_load_config gcb (pre ++ ("tarfilter.tgz.command".toList, some []) :: post)
        State.init).tar_filters "tgz".toList = none ∧
    ((∀ kv ∈ pre ++ ("tarfilter.tgz.command".toList, some []) :: post,
        config_key_name kv.1 = none ∨ config_key_name kv.1 = some "tgz".toList) →
      tar_filter_by_extension
        (tar_filter_load_config gcb (pre ++ ("tarfilter.tgz.command".toList, some []) :: post)
          State.init).tar_filters "archive.tar.gz".toList = none) := by
  obtain ⟨hd, rest, hm, hn, _, _, hrest⟩ :=
    merged_head gcb (pre ++ ("tarfilter.tgz.command".toList, some []) :: post)
  have hcmd : hd.command = some [] := by
    obtain ⟨hd1, rest1, hm1, hn1, _⟩ := merged_head gcb pre
    have hk : config_key_name "tarfilter.tgz.command".toList = some "tgz".toList := by decide
    have ht : config_key_type "tarfilter.tgz.command".toList = "command".toList := by decide
    have hstep : (tar_filter_config gcb "tarfilter.tgz.command".toList (some [])
        (hd1 :: rest1)).1 =
        attr_fn gcb "tarfilter.tgz.command".toList "command".toList (some []) hd1 :: rest1 := by
      rw [tar_filter_config_fst, hk, ht]
      show (if hd1.name = "tgz".toList then _ else _) = _
      rw [if_pos hn1]
    have hcmd1 : (attr_fn gcb "tarfilter.tgz.command".toList "command".toList (some [])
        hd1).command = some [] := by
      unfold attr_fn
      rw [if_pos rfl]
    have hname1 : (attr_fn gcb "tarfilter.tgz.command".toList "command".toList (some [])
        hd1).name = "tgz".toList := by
      rw [attr_fn_name]
      exact hn1
    obtain ⟨hd', rest', h1, _, h3⟩ := git_config_head_inv gcb
      (fun q => q.command = some []) post
      (attr_fn gcb "tarfilter.tgz.command".toList "command".toList (some []) hd1) rest1 hcmd1
      (by
        intro kv hkv q _ hkq hq
        have hkq' : config_key_name kv.1 = some "tgz".toList := by rw [hkq, hname1]
        rw [attr_fn_command gcb _ _ _ _ (fun htc => hpost kv hkv (by
          rw [config_key_split kv.1 _ hkq', htc]
          rfl))]
        exact hq)
    have hm' : merged gcb (pre ++ ("tarfilter.tgz.command".toList, some []) :: post) =
        hd' :: rest' := by
      unfold merged at hm1 ⊢
      rw [git_config_append, hm1]
      show git_config (tar_filter_config gcb) post
        (tar_filter_config gcb "tarfilter.tgz.command".toList (some []) (hd1 :: rest1)).1 = _
      rw [hstep, h1]
    rw [hm'] at hm
    cases hm
    exact h3
  have hc : has_command hd = false := by
    unfold has_command
    rw [hcmd]
  have hreg : (tar_filter_load_config gcb
      (pre ++ ("tarfilter.tgz.command".toList, some []) :: post) State.init).tar_filters =
      rest.filter has_command := by
    rw [tar_filter_load_config_init]
    show (merged gcb _).filter has_command = _
    rw [hm, List.filter_cons_of_neg (by rw [hc]; exact Bool.false_ne_true)]
  rw [hreg]
  refine ⟨(tar_filter_by_name_eq_none _ _).2
    (fun p hp => hrest p (List.mem_filter.1 hp).1), ?_⟩
  intro hall
  have hnames : ∀ p ∈ merged gcb (pre ++ ("tarfilter.tgz.command".toList, some []) :: post),
      p.name = "tgz".toList := by
    apply git_config_forall gcb (fun p => p.name = "tgz".toList)
    · intro p hp
      rw [load_builtin_filters_nil] at hp
      simp only [List.mem_singleton] at hp
      rw [hp]
      rfl
    · intro kv hkv m hkm
      rw [attr_fn_name]
      rcases hall kv hkv with h0 | h0
      · rw [h0] at hkm
        cases hkm
      · rw [h0] at hkm
        cases hkm
        rfl
    · intro kv _ q _ hq
      rw [attr_fn_name]
      exact hq
  apply tar_filter_by_extension_nil_of_forall
  intro p hp
  have hp' : p ∈ rest := (List.mem_filter.1 hp).1
  exact absurd (hnames p (by rw [hm]; exact List.mem_cons_of_mem _ hp')) (hrest p hp')

/-- Witness for C20: the command of "tgz" is set, then emptied, then an
extension is added. -/
theorem builtin_tgz_removed_witness :
    (∀ kv ∈ [("tarfilter.tgz.extension".toList, some "taz".toList)],
      kv.1 ≠ "tarfilter.tgz.command".toList) ∧
    tar_filter_by_name
      (tar_filter_load_config (fun _ _ => true)
        ([("tarfilter.tgz.command".toList, some "pigz".toList)] ++
          ("tarfilter.tgz.command".toList, some []) ::
          [("tarfilter.tgz.extension".toList, some "taz".toList)])
        State.init).tar_filters "tgz".toList = none :=
  ⟨by decide,
    (builtin_tgz_removed (fun _ _ => true)
      [("tarfilter.tgz.command".toList, some "pigz".toList)]
      [("tarfilter.tgz.extension".toList, some "taz".toList)] (by decide)).1⟩

end TarFilter
